import Mathlib

/-!
Verification development for the serialized tree storage engine
(SerialTree.cpp) of the mrcpp repository: the node/coefficient pool
allocators, the relocation protocol, the wavelet transform kernels and the
tree-merge engine.  Machine integers of the source are modelled as Nat/Int,
C arrays as total functions, double arithmetic as a commutative ring
(exact arithmetic standing in for floating point), and the in-place
mutation of the source as explicit state passing.
-/

namespace MRCPP

/-! ## Node-metadata pool (SerialTree constructor, allocNodes, DeAllocNodes)

The node pool of SerialTree.cpp: nNodes is the top-of-stack node count,
NodeStackStatus the occupancy array (0 free, 1 occupied, -1 sentinel at
index maxNodes), lastSlot the slot index corresponding to the running
lastNode pointer (which only ever advances), and rankField the NodeRank
field stored inside each metadata slot record. -/

@[ext]
structure NodePool where
  nNodes : ℕ
  maxNodes : ℕ
  lastSlot : ℕ
  status : ℕ → ℤ
  rankField : ℕ → ℤ

/-- Fresh pool as built by the SerialTree constructor: no nodes, statuses
0 below maxNodes and the -1 sentinel at index maxNodes. -/
def NodePool.fresh (m : ℕ) : NodePool :=
  { nNodes := 0, maxNodes := m, lastSlot := 0,
    status := fun s => if s = m then -1 else 0,
    rankField := fun _ => 0 }

/-- SerialTree::allocNodes.  Advances nNodes by nAlloc and fails (MSG_FATAL)
when the budget maxNodes would be exceeded.  On success the code advances
lastNode by nAlloc slots and runs a loop that, for each i < nAlloc, writes
NodeRank := nNodes+i-1 into the record at oldlastNode (the same record every
iteration, as in the source) and sets NodeStackStatus[nNodes+i-1] := 1,
with nNodes already advanced.  Returns the slot index of oldlastNode. -/
def allocNodesM (p : NodePool) (nAlloc : ℕ) : Option (ℕ × NodePool) :=
  let n' := p.nNodes + nAlloc
  if p.maxNodes < n' then none
  else
    let q0 : NodePool := { p with nNodes := n', lastSlot := p.lastSlot + nAlloc }
    let q1 := (List.range nAlloc).foldl
      (fun q i =>
        { q with
          rankField := Function.update q.rankField p.lastSlot ((n' : ℤ) + i - 1),
          status := Function.update q.status (n' + i - 1) 1 }) q0
    some (p.lastSlot, q1)

/-- The trailing while loop of SerialTree::DeAllocNodes: starting from
TopStack = nNodes, recede while NodeStackStatus[TopStack-1] == 0 and
TopStack > 0. -/
def recedeN (st : ℕ → ℤ) : ℕ → ℕ
  | 0 => 0
  | t + 1 => if st t = 0 then recedeN st t else t + 1

/-- SerialTree::DeAllocNodes.  Marks the slot free; when the released rank
is the current top (NodeRank == nNodes-1) the top recedes past trailing
free slots.  The source has no check that the slot was occupied and prints
no message in that case; the Bool output records that no double-release
warning is ever emitted (the only println in the function concerns a
negative node count, unreachable here).  The initial `if (nNodes < 0)`
branch of the source cannot fire with a natural-number count. -/
def DeAllocNodesM (p : NodePool) (NodeRank : ℕ) : NodePool × Bool :=
  let p1 : NodePool := { p with status := Function.update p.status NodeRank 0 }
  if NodeRank + 1 = p1.nNodes then
    ({ p1 with nNodes := recedeN p1.status p1.nNodes }, false)
  else
    (p1, false)

/-! ## Permanent coefficient pool (allocCoeff, DeAllocCoeff)

nNodesCoeff starts at -1 and is pre-incremented on allocation, so it holds
the index of the topmost allocated block.  CoeffStack holds the block
addresses fixed at construction. -/

structure CoeffPool where
  nNodesCoeff : ℤ
  maxNodesCoeff : ℕ
  coeffStack : ℕ → ℤ
  status : ℤ → ℤ

/-- Coefficient pool as built by the SerialTree constructor:
CoeffStack[i] = firstNodeCoeff + i * sizeNodeCoeff elements, all statuses 0
below maxNodesCoeff, sentinel -1 at maxNodesCoeff. -/
def CoeffPool.fresh (firstNodeCoeff : ℤ) (stride : ℕ) (m : ℕ) : CoeffPool :=
  { nNodesCoeff := -1, maxNodesCoeff := m,
    coeffStack := fun i => firstNodeCoeff + (i : ℤ) * stride,
    status := fun i => if i = (m : ℤ) then -1 else 0 }

/-- SerialTree::allocCoeff.  Fatal unless nAllocCoeff = 2^D; pre-increments
nNodesCoeff, fails on budget overflow or an occupied slot, otherwise marks
the slot and returns the fixed address CoeffStack[nNodesCoeff]. -/
def allocCoeffM (D : ℕ) (p : CoeffPool) (nAllocCoeff : ℕ) : Option (ℤ × CoeffPool) :=
  if nAllocCoeff ≠ 2 ^ D then none
  else
    let n' := p.nNodesCoeff + 1
    if (p.maxNodesCoeff : ℤ) < n' then none
    else if p.status n' ≠ 0 then none
    else some (p.coeffStack n'.toNat,
      { p with nNodesCoeff := n', status := Function.update p.status n' 1 })

/-- The trailing while loop of DeAllocCoeff / DeAllocGenCoeff: starting from
TopStack = nNodesCoeff, recede while status[TopStack] == 0 and TopStack > 0.
Defined on an integer top by recursion on its non-negative part. -/
def recedeC (st : ℤ → ℤ) (t : ℤ) : ℤ :=
  if st t = 0 ∧ 0 < t then recedeC st (t - 1) else t
termination_by t.toNat
decreasing_by
  rename_i h
  omega

/-- SerialTree::DeAllocCoeff.  Logs when the slot is already free (the Bool
output), then unconditionally marks it free and, when the index equals the
top, recedes the top past trailing free slots. -/
def DeAllocCoeffM (p : CoeffPool) (DeallocIx : ℤ) : CoeffPool × Bool :=
  let logged := p.status DeallocIx = 0
  let p1 : CoeffPool := { p with status := Function.update p.status DeallocIx 0 }
  if DeallocIx = p1.nNodesCoeff then
    ({ p1 with nNodesCoeff := recedeC p1.status p1.nNodesCoeff }, decide logged)
  else
    (p1, decide logged)

/-! ## Generated coefficient pool (allocGenCoeff, DeAllocGenCoeff) -/

structure GenCoeffPool where
  nGenNodesCoeff : ℤ
  maxGenNodesCoeff : ℕ
  genCoeffStack : ℕ → ℤ
  gstatus : ℤ → ℤ

/-- SerialTree::DeAllocGenCoeff.  When the slot is already free it only
logs (the Bool output) and changes nothing; otherwise it frees the slot
and, when the index equals the top, recedes the top.  The source's recede
loop reads CoeffStackStatus (the permanent pool's array, passed here as
cstatus) rather than GenCoeffStackStatus, faithfully reproduced. -/
def DeAllocGenCoeffM (cstatus : ℤ → ℤ) (p : GenCoeffPool) (DeallocIx : ℤ) :
    GenCoeffPool × Bool :=
  if p.gstatus DeallocIx = 0 then (p, true)
  else
    let p1 : GenCoeffPool := { p with gstatus := Function.update p.gstatus DeallocIx 0 }
    if DeallocIx = p1.nGenNodesCoeff then
      ({ p1 with nGenNodesCoeff := recedeC cstatus p1.nGenNodesCoeff }, false)
    else
      (p1, false)

/-! ## Derived pool notions used by the stack-discipline claims -/

/-- Allocating nodes one slot at a time, as the constructor and genChildren
do: k successive allocNodes(1) calls. -/
def allocReps (p : NodePool) : ℕ → Option NodePool
  | 0 => some p
  | k + 1 => (allocReps p k).bind fun q => (allocNodesM q 1).map Prod.snd

/-- Releasing a list of ranks in order. -/
def releaseFold (p : NodePool) (L : List ℕ) : NodePool :=
  L.foldl (fun q r => (DeAllocNodesM q r).1) p

/-- Top of stack after slots in S have been released out of n allocated:
one past the largest still-occupied slot. -/
def topAfter (n : ℕ) (S : Finset ℕ) : ℕ :=
  ((Finset.range n).filter (fun i => i ∉ S)).sup (· + 1)

/-- Canonical pool state: n slots allocated one at a time from a fresh pool
of capacity m, then the slots in S released (in any order). -/
def canonical (n m : ℕ) (S : Finset ℕ) : NodePool :=
  { nNodes := topAfter n S, maxNodes := m, lastSlot := n,
    status := fun i => if i = m then -1 else if i < n ∧ i ∉ S then 1 else 0,
    rankField := fun s => if s < n then (s : ℤ) else 0 }

/-- Number of holes: free slots strictly below the top of stack. -/
def holesM (p : NodePool) : ℕ :=
  ((Finset.range p.nNodes).filter (fun i => p.status i = 0)).card

/-- Number of releases in a sequence performed while the released rank was
not the current top of stack. -/
def nonTrailingCount (p : NodePool) (L : List ℕ) : ℕ :=
  (L.foldl (fun (s : NodePool × ℕ) r =>
    ((DeAllocNodesM s.1 r).1, if r + 1 = s.1.nNodes then s.2 else s.2 + 1)) (p, 0)).2

/-! ### Recede-loop lemmas -/

theorem recedeN_le (st : ℕ → ℤ) : ∀ t, recedeN st t ≤ t := by
  intro t
  induction t with
  | zero => simp [recedeN]
  | succ k ih =>
    simp only [recedeN]
    split
    · omega
    · omega

theorem recedeN_zero_between (st : ℕ → ℤ) :
    ∀ t i, recedeN st t ≤ i → i < t → st i = 0 := by
  intro t
  induction t with
  | zero => intro i h1 h2; omega
  | succ k ih =>
    intro i h1 h2
    simp only [recedeN] at h1
    by_cases hk : st k = 0
    · rw [if_pos hk] at h1
      rcases Nat.lt_or_ge i k with h | h
      · exact ih i h1 h
      · have : i = k := by omega
        rw [this]; exact hk
    · rw [if_neg hk] at h1
      omega

theorem recedeN_stops (st : ℕ → ℤ) :
    ∀ t, recedeN st t = 0 ∨ st (recedeN st t - 1) ≠ 0 := by
  intro t
  induction t with
  | zero => left; rfl
  | succ k ih =>
    simp only [recedeN]
    by_cases hk : st k = 0
    · rw [if_pos hk]; exact ih
    · rw [if_neg hk]; right; simpa using hk

/-! ### topAfter lemmas -/

theorem topAfter_le (n : ℕ) (S : Finset ℕ) : topAfter n S ≤ n := by
  apply Finset.sup_le
  intro i hi
  simp only [Finset.mem_filter, Finset.mem_range] at hi
  omega

theorem topAfter_empty (n : ℕ) : topAfter n (∅ : Finset ℕ) = n := by
  apply le_antisymm (topAfter_le n ∅)
  cases n with
  | zero => simp
  | succ k =>
    have hmem : k ∈ (Finset.range (k + 1)).filter (fun i => i ∉ (∅ : Finset ℕ)) := by
      simp
    have h2 := Finset.le_sup (f := fun i => i + 1) hmem
    exact h2

theorem lt_topAfter_of_unreleased {n : ℕ} {S : Finset ℕ} {i : ℕ}
    (hin : i < n) (hiS : i ∉ S) : i < topAfter n S := by
  have : i ∈ (Finset.range n).filter (fun j => j ∉ S) := by
    simp [hin, hiS]
  have h2 : i + 1 ≤ topAfter n S := Finset.le_sup (f := (· + 1)) this
  omega

theorem topAfter_all_released {n : ℕ} {S : Finset ℕ}
    (h : ∀ i, i < n → i ∈ S) : topAfter n S = 0 := by
  unfold topAfter
  have : (Finset.range n).filter (fun i => i ∉ S) = ∅ := by
    apply Finset.filter_eq_empty_iff.2
    intro i hi
    simp only [Finset.mem_range] at hi
    simp [h i hi]
  rw [this]
  rfl

theorem mem_of_ge_topAfter {n : ℕ} {S : Finset ℕ} {i : ℕ}
    (hin : i < n) (hge : topAfter n S ≤ i) : i ∈ S := by
  by_contra hiS
  have := lt_topAfter_of_unreleased hin hiS
  omega

theorem topAfter_insert_nontop {n : ℕ} {S : Finset ℕ} {r : ℕ}
    (hr : r < n) (hrS : r ∉ S) (hne : r + 1 ≠ topAfter n S) :
    topAfter n (insert r S) = topAfter n S := by
  have hrlt : r < topAfter n S := lt_topAfter_of_unreleased hr hrS
  have hlt : r + 1 < topAfter n S := by omega
  apply le_antisymm
  · apply Finset.sup_le
    intro i hi
    simp only [Finset.mem_filter, Finset.mem_range, Finset.mem_insert, not_or] at hi
    exact Finset.le_sup (f := (· + 1)) (by simp [hi.1, hi.2.2])
  · have hne2 : ((Finset.range n).filter (fun i => i ∉ S)).Nonempty := ⟨r, by simp [hr, hrS]⟩
    obtain ⟨j, hj, hjeq⟩ := Finset.exists_mem_eq_sup _ hne2 (fun i => i + 1)
    simp only [Finset.mem_filter, Finset.mem_range] at hj
    have hjeq2 : topAfter n S = j + 1 := hjeq
    have hjr : j ≠ r := by
      intro h; rw [h] at hjeq2; omega
    have hmem2 : j ∈ (Finset.range n).filter (fun i => i ∉ insert r S) := by
      simp only [Finset.mem_filter, Finset.mem_range, Finset.mem_insert, not_or]
      exact ⟨hj.1, hjr, hj.2⟩
    have h3 := Finset.le_sup (f := fun i => i + 1) hmem2
    rw [hjeq2]
    exact h3

/-! ### The canonical-state characterization of alloc/release -/

theorem allocNodesM_one (p : NodePool) (h : p.nNodes + 1 ≤ p.maxNodes) :
    allocNodesM p 1 = some (p.lastSlot,
      { p with
          nNodes := p.nNodes + 1
          lastSlot := p.lastSlot + 1
          status := Function.update p.status p.nNodes 1
          rankField := Function.update p.rankField p.lastSlot (p.nNodes : ℤ) }) := by
  unfold allocNodesM
  rw [if_neg (by omega)]
  rw [show List.range 1 = [0] from rfl]
  simp only [List.foldl_cons, List.foldl_nil]
  rw [Option.some_inj]
  refine Prod.ext rfl ?_
  refine NodePool.ext rfl rfl rfl ?_ ?_
  · show Function.update p.status (p.nNodes + 1 + 0 - 1) 1 = Function.update p.status p.nNodes 1
    congr 1
  · show Function.update p.rankField p.lastSlot ((p.nNodes : ℤ) + 1 + 0 - 1) =
      Function.update p.rankField p.lastSlot (p.nNodes : ℤ)
    have hv : (p.nNodes : ℤ) + 1 + 0 - 1 = (p.nNodes : ℤ) := by ring
    rw [hv]

theorem allocNodesM_one_canonical (k m : ℕ) (h : k + 1 ≤ m) :
    allocNodesM (canonical k m ∅) 1 = some (k, canonical (k + 1) m ∅) := by
  have htop : topAfter k (∅ : Finset ℕ) = k := topAfter_empty k
  have htop1 : topAfter (k + 1) (∅ : Finset ℕ) = k + 1 := topAfter_empty (k + 1)
  have hkm : k ≠ m := by omega
  rw [allocNodesM_one _ (by simpa [canonical, htop] using h)]
  rw [Option.some_inj]
  refine Prod.ext rfl ?_
  have hn : (canonical k m ∅).nNodes = k := htop
  have hl : (canonical k m ∅).lastSlot = k := rfl
  refine NodePool.ext ?_ rfl rfl ?_ ?_
  · show (canonical k m ∅).nNodes + 1 = (canonical (k + 1) m ∅).nNodes
    rw [hn]
    exact htop1.symm
  · funext i
    show Function.update (canonical k m ∅).status (canonical k m ∅).nNodes 1 i =
      (canonical (k + 1) m ∅).status i
    rw [hn]
    rcases eq_or_ne i k with rfl | hne
    · rw [Function.update_same]
      simp [canonical, hkm]
    · rw [Function.update_noteq hne]
      simp only [canonical]
      by_cases him : i = m
      · simp [him]
      · simp only [if_neg him]
        have hiff : (i < k ∧ i ∉ (∅ : Finset ℕ)) ↔ (i < k + 1 ∧ i ∉ (∅ : Finset ℕ)) := by
          simp only [Finset.not_mem_empty, not_false_iff, and_true]
          omega
        rw [if_congr hiff rfl rfl]
  · funext i
    show Function.update (canonical k m ∅).rankField (canonical k m ∅).lastSlot
      ((canonical k m ∅).nNodes : ℤ) i = (canonical (k + 1) m ∅).rankField i
    rw [hn, hl]
    rcases eq_or_ne i k with rfl | hne
    · rw [Function.update_same]
      simp [canonical]
    · rw [Function.update_noteq hne]
      simp only [canonical]
      have hiff : (i < k) ↔ (i < k + 1) := by omega
      rw [if_congr hiff rfl rfl]

theorem allocReps_fresh (n m : ℕ) (h : n ≤ m) :
    allocReps (NodePool.fresh m) n = some (canonical n m ∅) := by
  induction n with
  | zero =>
    simp only [allocReps]
    congr 1
  | succ k ih =>
    have hk : k ≤ m := by omega
    simp only [allocReps, ih hk]
    rw [show ∀ (a : NodePool) (f : NodePool → Option NodePool),
        (some a).bind f = f a from fun _ _ => rfl]
    rw [allocNodesM_one_canonical k m h]
    rfl

theorem canonical_status_insert {n m : ℕ} {S : Finset ℕ} {r : ℕ}
    (hr : r < n) (hnm : n ≤ m) :
    Function.update (canonical n m S).status r 0 = (canonical n m (insert r S)).status := by
  have hrm : r ≠ m := by omega
  funext i
  rcases eq_or_ne i r with rfl | hne
  · simp [Function.update, canonical, hrm]
  · simp [Function.update, canonical, hne]

theorem recedeN_canonical {n m : ℕ} {S : Finset ℕ} (hnm : n ≤ m) :
    ∀ t, t ≤ n → (∀ i, i < n → t ≤ i → i ∈ S) →
    recedeN (canonical n m S).status t = topAfter n S := by
  intro t
  induction t with
  | zero =>
    intro _ hall
    have : topAfter n S = 0 := topAfter_all_released (fun i hi => hall i hi (by omega))
    simp [recedeN, this]
  | succ k ih =>
    intro hkn hall
    have hkm : k ≠ m := by omega
    have hkn2 : k < n := by omega
    simp only [recedeN]
    by_cases hkS : k ∈ S
    · have hst : (canonical n m S).status k = 0 := by
        simp [canonical, hkm, hkS]
      rw [if_pos hst]
      apply ih (by omega)
      intro i hin hki
      rcases Nat.eq_or_lt_of_le hki with rfl | h
      · exact hkS
      · exact hall i hin (by omega)
    · have hst : (canonical n m S).status k = 1 := by
        simp [canonical, hkm, hkn2, hkS]
      rw [if_neg (by rw [hst]; norm_num)]
      apply le_antisymm
      · exact lt_topAfter_of_unreleased (by omega) hkS
      · apply Finset.sup_le
        intro i hi
        simp only [Finset.mem_filter, Finset.mem_range] at hi
        by_contra hgt
        exact hi.2 (hall i hi.1 (by omega))

theorem deAlloc_canonical {n m : ℕ} {S : Finset ℕ} {r : ℕ}
    (hr : r < n) (hrS : r ∉ S) (hnm : n ≤ m) :
    (DeAllocNodesM (canonical n m S) r).1 = canonical n m (insert r S) := by
  unfold DeAllocNodesM
  simp only [canonical_status_insert hr hnm]
  by_cases htop : r + 1 = (canonical n m S).nNodes
  · rw [if_pos htop]
    have htop2 : r + 1 = topAfter n S := htop
    have hrec : recedeN (canonical n m (insert r S)).status (topAfter n S) =
        topAfter n (insert r S) := by
      apply recedeN_canonical hnm
      · exact le_trans (topAfter_le n S) le_rfl
      · intro i hin hge
        rcases eq_or_ne i r with rfl | hne
        · exact Finset.mem_insert_self i S
        · exact Finset.mem_insert_of_mem
            (mem_of_ge_topAfter hin (by omega))
    ext i
    · exact hrec
    · rfl
    · rfl
    · rfl
    · rfl
  · rw [if_neg htop]
    have htop2 : r + 1 ≠ topAfter n S := htop
    ext i
    · exact (topAfter_insert_nontop hr hrS htop2).symm
    · rfl
    · rfl
    · rfl
    · rfl

theorem releaseFold_canonical {n m : ℕ} (hnm : n ≤ m) :
    ∀ (L : List ℕ) (S : Finset ℕ), L.Nodup → (∀ x ∈ L, x < n ∧ x ∉ S) →
    releaseFold (canonical n m S) L = canonical n m (S ∪ L.toFinset) := by
  intro L
  induction L with
  | nil => intro S _ _; simp [releaseFold]
  | cons r L ih =>
    intro S hnd hx
    have h1 := hx r (by simp)
    have : releaseFold (canonical n m S) (r :: L) =
        releaseFold ((DeAllocNodesM (canonical n m S) r).1) L := rfl
    rw [this, deAlloc_canonical h1.1 h1.2 hnm]
    rw [ih (insert r S) (List.nodup_cons.1 hnd).2]
    · congr 1
      ext i
      simp only [Finset.mem_union, Finset.mem_insert, List.toFinset_cons, List.mem_toFinset]
      tauto
    · intro x hxL
      refine ⟨(hx x (by simp [hxL])).1, ?_⟩
      simp only [Finset.mem_insert, not_or]
      exact ⟨fun h => (List.nodup_cons.1 hnd).1 (h ▸ hxL), (hx x (by simp [hxL])).2⟩

theorem holes_canonical {n m : ℕ} (S : Finset ℕ) (hnm : n ≤ m) :
    holesM (canonical n m S) = (S.filter (· < topAfter n S)).card := by
  unfold holesM
  congr 1
  ext i
  simp only [Finset.mem_filter, Finset.mem_range, canonical]
  constructor
  · rintro ⟨hi, hst⟩
    have hin : i < n := lt_of_lt_of_le hi (topAfter_le n S)
    have him : i ≠ m := by omega
    rw [if_neg him] at hst
    by_cases hiS : i ∈ S
    · exact ⟨hiS, hi⟩
    · rw [if_pos ⟨hin, hiS⟩] at hst; norm_num at hst
  · rintro ⟨hiS, hi⟩
    have hin : i < n := lt_of_lt_of_le hi (topAfter_le n S)
    exact ⟨hi, by rw [if_neg (by omega : i ≠ m)]; simp [hiS]⟩

/-! ## Coefficient-pool operation sequences (for the address-stability claim) -/

inductive CoeffPoolOp where
  | alloc : ℕ → CoeffPoolOp
  | dealloc : ℤ → CoeffPoolOp

/-- One allocate or release step on the permanent coefficient pool. -/
def applyCoeffOp (D : ℕ) (p : CoeffPool) : CoeffPoolOp → CoeffPool
  | CoeffPoolOp.alloc n =>
      match allocCoeffM D p n with
      | some pr => pr.2
      | none => p
  | CoeffPoolOp.dealloc ix => (DeAllocCoeffM p ix).1

theorem applyCoeffOp_coeffStack (D : ℕ) (p : CoeffPool) (op : CoeffPoolOp) :
    (applyCoeffOp D p op).coeffStack = p.coeffStack := by
  cases op with
  | alloc n =>
    have key : ∀ (a : ℤ) (q : CoeffPool), allocCoeffM D p n = some (a, q) →
        q.coeffStack = p.coeffStack := by
      intro a q h
      unfold allocCoeffM at h
      by_cases h1 : n ≠ 2 ^ D
      · rw [if_pos h1] at h; cases h
      · rw [if_neg h1] at h
        by_cases h2 : (p.maxNodesCoeff : ℤ) < p.nNodesCoeff + 1
        · rw [if_pos h2] at h; cases h
        · rw [if_neg h2] at h
          by_cases h3 : p.status (p.nNodesCoeff + 1) ≠ 0
          · rw [if_pos h3] at h; cases h
          · rw [if_neg h3] at h
            rw [Option.some_inj] at h
            injection h with ha hq
            rw [← hq]
    simp only [applyCoeffOp]
    cases h : allocCoeffM D p n with
    | none => rfl
    | some pr => exact key pr.1 pr.2 h
  | dealloc ix =>
    simp only [applyCoeffOp]
    by_cases h : ix = p.nNodesCoeff <;> simp [DeAllocCoeffM, h]

theorem foldl_coeffStack (D : ℕ) (ops : List CoeffPoolOp) :
    ∀ p : CoeffPool, (ops.foldl (applyCoeffOp D) p).coeffStack = p.coeffStack := by
  induction ops with
  | nil => intro p; rfl
  | cons op ops ih =>
    intro p
    calc (List.foldl (applyCoeffOp D) (applyCoeffOp D p op) ops).coeffStack
        = (applyCoeffOp D p op).coeffStack := ih _
    _ = p.coeffStack := applyCoeffOp_coeffStack D p op

theorem allocCoeffM_success (D : ℕ) (p : CoeffPool) (n : ℕ)
    (h2 : n = 2 ^ D) (h3 : p.nNodesCoeff + 1 ≤ (p.maxNodesCoeff : ℤ))
    (h4 : p.status (p.nNodesCoeff + 1) = 0) :
    allocCoeffM D p n = some (p.coeffStack (p.nNodesCoeff + 1).toNat,
      { p with
          nNodesCoeff := p.nNodesCoeff + 1
          status := Function.update p.status (p.nNodesCoeff + 1) 1 }) := by
  unfold allocCoeffM
  rw [if_neg (by simpa using h2), if_neg (by omega), if_neg (by simpa using h4)]

/-! ## Claim theorems: pool allocators -/

/-- C3 (code bug evidence): evaluating SerialTree::allocNodes on a fresh
pool of capacity 4 with a request for 2 slots.  The node count advances by
2 and slot indices 0 and 1 are the two reserved slots, but the occupancy
marks land on slots 1 and 2 (slot 0 is left unmarked, slot 2 beyond the
new top is marked), and both rank writes go to the record of slot 0
(final value 2) while slot 1 never receives a rank. -/
theorem C3_allocNodes_marks_wrong_slots :
    (allocNodesM (NodePool.fresh 4) 2).map
      (fun r => (r.1, r.2.nNodes, r.2.status 0, r.2.status 1, r.2.status 2,
        r.2.rankField 0, r.2.rankField 1)) =
    some (0, 2, 0, 1, 1, 2, 0) := by
  rfl

/-- C4 (amended): stack discipline of DeAllocNodes.  A non-top release only
marks the hole and leaves the top unchanged; a top release recedes the top
past all contiguous trailing free slots (every slot between the new and old
top is free and the slot below the new top is occupied, unless the pool is
empty); allocating n slots one at a time from a fresh pool and then
releasing them in any order (reverse order in particular) returns the top
of stack to its initial value 0 with no holes left; and at every
intermediate state the number of holes equals the number of released slots
still below the current top. -/
theorem C4_stack_discipline_amended :
    (∀ (p : NodePool) (r : ℕ), r + 1 ≠ p.nNodes →
      (DeAllocNodesM p r).1.nNodes = p.nNodes ∧
      (DeAllocNodesM p r).1.status = Function.update p.status r 0) ∧
    (∀ (p : NodePool) (r : ℕ), r + 1 = p.nNodes →
      (∀ i, (DeAllocNodesM p r).1.nNodes ≤ i → i < p.nNodes →
        (DeAllocNodesM p r).1.status i = 0) ∧
      ((DeAllocNodesM p r).1.nNodes = 0 ∨
        (DeAllocNodesM p r).1.status ((DeAllocNodesM p r).1.nNodes - 1) ≠ 0)) ∧
    (∀ n m : ℕ, n ≤ m → allocReps (NodePool.fresh m) n = some (canonical n m ∅)) ∧
    (∀ (n m : ℕ) (L : List ℕ), n ≤ m → L.Nodup → (∀ x ∈ L, x < n) →
      releaseFold (canonical n m ∅) L = canonical n m L.toFinset) ∧
    (∀ n m : ℕ, n ≤ m →
      (releaseFold (canonical n m ∅) (List.range n).reverse).nNodes = 0 ∧
      holesM (releaseFold (canonical n m ∅) (List.range n).reverse) = 0) ∧
    (∀ (n m : ℕ) (S : Finset ℕ), n ≤ m →
      holesM (canonical n m S) = (S.filter (· < topAfter n S)).card) := by
  have hpart1 : ∀ (p : NodePool) (r : ℕ), r + 1 ≠ p.nNodes →
      (DeAllocNodesM p r).1.nNodes = p.nNodes ∧
      (DeAllocNodesM p r).1.status = Function.update p.status r 0 := by
    intro p r h
    unfold DeAllocNodesM
    rw [if_neg (by simpa using h)]
    exact ⟨rfl, rfl⟩
  have hpart2 : ∀ (p : NodePool) (r : ℕ), r + 1 = p.nNodes →
      (∀ i, (DeAllocNodesM p r).1.nNodes ≤ i → i < p.nNodes →
        (DeAllocNodesM p r).1.status i = 0) ∧
      ((DeAllocNodesM p r).1.nNodes = 0 ∨
        (DeAllocNodesM p r).1.status ((DeAllocNodesM p r).1.nNodes - 1) ≠ 0) := by
    intro p r h
    unfold DeAllocNodesM
    rw [if_pos (by simpa using h)]
    constructor
    · intro i h1 h2
      exact recedeN_zero_between _ p.nNodes i h1 h2
    · exact recedeN_stops _ p.nNodes
  have hpart4 : ∀ (n m : ℕ) (L : List ℕ), n ≤ m → L.Nodup → (∀ x ∈ L, x < n) →
      releaseFold (canonical n m ∅) L = canonical n m L.toFinset := by
    intro n m L hnm hnd hx
    have := releaseFold_canonical hnm L ∅ hnd (fun x hxL => ⟨hx x hxL, by simp⟩)
    simpa using this
  have hpart5 : ∀ n m : ℕ, n ≤ m →
      (releaseFold (canonical n m ∅) (List.range n).reverse).nNodes = 0 ∧
      holesM (releaseFold (canonical n m ∅) (List.range n).reverse) = 0 := by
    intro n m hnm
    have hfold := hpart4 n m (List.range n).reverse hnm
      (by simpa using List.nodup_range n)
      (by intro x hx; simpa using List.mem_range.1 (List.mem_reverse.1 hx))
    have htf : ((List.range n).reverse).toFinset = Finset.range n := by
      ext x
      simp [List.mem_reverse, List.mem_range]
    rw [hfold, htf]
    have htop0 : topAfter n (Finset.range n) = 0 :=
      topAfter_all_released (fun i hi => Finset.mem_range.2 hi)
    constructor
    · exact htop0
    · unfold holesM
      have : (canonical n m (Finset.range n)).nNodes = 0 := htop0
      rw [this]
      simp
  refine ⟨hpart1, hpart2, fun n m h => allocReps_fresh n m h, hpart4, hpart5, ?_⟩
  intro n m S hnm
  exact holes_canonical S hnm

/-- C4 witness: the amended stack-discipline theorem applied at concrete
inputs (a capacity-3 pool with two allocated slots). -/
theorem C4_stack_discipline_witness :
    ((DeAllocNodesM (canonical 2 3 ∅) 0).1.nNodes = (canonical 2 3 ∅).nNodes ∧
      (DeAllocNodesM (canonical 2 3 ∅) 0).1.status =
        Function.update (canonical 2 3 ∅).status 0 0) ∧
    allocReps (NodePool.fresh 3) 2 = some (canonical 2 3 ∅) ∧
    ((releaseFold (canonical 2 3 ∅) (List.range 2).reverse).nNodes = 0 ∧
      holesM (releaseFold (canonical 2 3 ∅) (List.range 2).reverse) = 0) ∧
    holesM (canonical 2 3 {0}) = (({0} : Finset ℕ).filter (· < topAfter 2 {0})).card :=
  ⟨C4_stack_discipline_amended.1 (canonical 2 3 ∅) 0 (by decide),
   C4_stack_discipline_amended.2.2.1 2 3 (by norm_num),
   C4_stack_discipline_amended.2.2.2.2.1 2 3 (by norm_num),
   C4_stack_discipline_amended.2.2.2.2.2 2 3 {0} (by norm_num)⟩

/-- C4 counterexample: releasing 2 allocated slots in the non-reverse order
0 then 1 leaves zero holes (the final top release sweeps past both free
slots), while the number of non-trailing releases is 1 — so the claimed
equality between the two fails. -/
theorem C4_holes_count_counterexample :
    holesM (releaseFold (canonical 2 3 ∅) [0, 1]) = 0 ∧
    nonTrailingCount (canonical 2 3 ∅) [0, 1] = 1 ∧
    holesM (releaseFold (canonical 2 3 ∅) [0, 1]) ≠
      nonTrailingCount (canonical 2 3 ∅) [0, 1] := by
  decide

theorem recedeC_of_nonpos (st : ℤ → ℤ) (t : ℤ) (h : t ≤ 0) : recedeC st t = t := by
  unfold recedeC
  rw [if_neg (by omega)]

/-- C8 (amended): double release.  For the permanent coefficient pool the
release of an already-free slot is detected and logged and leaves the
occupancy array and top of stack unchanged; for the generated coefficient
pool it is detected and logged and is a complete no-op; but for the
node-metadata pool DeAllocNodes performs no detection and emits no log —
under the pool invariant (the slot below the top is occupied unless the
pool is empty) the state is nevertheless unchanged. -/
theorem C8_double_release_amended :
    (∀ (p : CoeffPool) (Ix : ℤ),
      (p.nNodesCoeff ≤ 0 ∨ p.status p.nNodesCoeff ≠ 0) → p.status Ix = 0 →
      (DeAllocCoeffM p Ix).2 = true ∧
      (DeAllocCoeffM p Ix).1.nNodesCoeff = p.nNodesCoeff ∧
      ∀ j, (DeAllocCoeffM p Ix).1.status j = p.status j) ∧
    (∀ (cst : ℤ → ℤ) (p : GenCoeffPool) (Ix : ℤ), p.gstatus Ix = 0 →
      DeAllocGenCoeffM cst p Ix = (p, true)) ∧
    (∀ (p : NodePool) (r : ℕ),
      (p.nNodes = 0 ∨ p.status (p.nNodes - 1) ≠ 0) → p.status r = 0 →
      (DeAllocNodesM p r).2 = false ∧
      (DeAllocNodesM p r).1.nNodes = p.nNodes ∧
      ∀ j, (DeAllocNodesM p r).1.status j = p.status j) := by
  refine ⟨?_, ?_, ?_⟩
  · intro p Ix hinv hfree
    have hupd : ∀ j, Function.update p.status Ix 0 j = p.status j := by
      intro j
      rcases eq_or_ne j Ix with rfl | hne
      · rw [Function.update_same, hfree]
      · rw [Function.update_noteq hne]
    unfold DeAllocCoeffM
    by_cases htop : Ix = p.nNodesCoeff
    · rw [if_pos htop]
      have ht0 : p.nNodesCoeff ≤ 0 := by
        rcases hinv with h | h
        · exact h
        · exact absurd (htop ▸ hfree) h
      refine ⟨by simp [hfree], ?_, hupd⟩
      simpa using recedeC_of_nonpos _ _ ht0
    · rw [if_neg htop]
      exact ⟨by simp [hfree], rfl, hupd⟩
  · intro cst p Ix hfree
    unfold DeAllocGenCoeffM
    rw [if_pos hfree]
  · intro p r hinv hfree
    have hne : r + 1 ≠ p.nNodes := by
      intro heq
      rcases hinv with h | h
      · omega
      · have : r = p.nNodes - 1 := by omega
        exact h (this ▸ hfree)
    have hupd : ∀ j, Function.update p.status r 0 j = p.status j := by
      intro j
      rcases eq_or_ne j r with rfl | hj
      · rw [Function.update_same, hfree]
      · rw [Function.update_noteq hj]
    unfold DeAllocNodesM
    rw [if_neg (by simpa using hne)]
    exact ⟨rfl, rfl, hupd⟩

/-- Concrete node pool with slot 0 already free (it equals the state after
allocating two slots and releasing rank 0). -/
def c8pool : NodePool :=
  { nNodes := 2, maxNodes := 3, lastSlot := 2,
    status := fun i => if i = 1 then 1 else if i = 3 then -1 else 0,
    rankField := fun s => (s : ℤ) }

/-- Concrete generated-coefficient pool in its freshly constructed state. -/
def c8genpool : GenCoeffPool :=
  { nGenNodesCoeff := -1, maxGenNodesCoeff := 3,
    genCoeffStack := fun i => 2000 + (i : ℤ) * 64,
    gstatus := fun i => if i = 3 then -1 else 0 }

/-- C8 counterexample: releasing the already-free slot 0 of a node pool
emits no double-release warning, contradicting the claim that every pool
detects and logs double release. -/
theorem C8_node_pool_silent_counterexample :
    c8pool.status 0 = 0 ∧ (DeAllocNodesM c8pool 0).2 = false := by
  decide

/-- C8 witness: the amended double-release theorem applied to a fresh
permanent coefficient pool, a fresh generated pool and the concrete node
pool with a hole. -/
theorem C8_double_release_witness :
    ((DeAllocCoeffM (CoeffPool.fresh 1000 64 3) 0).2 = true ∧
      (DeAllocCoeffM (CoeffPool.fresh 1000 64 3) 0).1.nNodesCoeff =
        (CoeffPool.fresh 1000 64 3).nNodesCoeff ∧
      ∀ j, (DeAllocCoeffM (CoeffPool.fresh 1000 64 3) 0).1.status j =
        (CoeffPool.fresh 1000 64 3).status j) ∧
    DeAllocGenCoeffM (fun _ => 0) c8genpool 0 = (c8genpool, true) ∧
    ((DeAllocNodesM c8pool 0).2 = false ∧
      (DeAllocNodesM c8pool 0).1.nNodes = c8pool.nNodes ∧
      ∀ j, (DeAllocNodesM c8pool 0).1.status j = c8pool.status j) :=
  ⟨C8_double_release_amended.1 (CoeffPool.fresh 1000 64 3) 0 (Or.inl (by norm_num [CoeffPool.fresh]))
      (by norm_num [CoeffPool.fresh]),
   C8_double_release_amended.2.1 (fun _ => 0) c8genpool 0 (by norm_num [c8genpool]),
   C8_double_release_amended.2.2 c8pool 0 (Or.inr (by norm_num [c8pool]))
      (by norm_num [c8pool])⟩

/-- C10: the permanent coefficient pool's block addresses are fixed at
construction to the coefficient-region start plus block index times the
block stride, no sequence of allocations and releases ever changes the
mapping, and a successful allocCoeff(2^D) returns exactly the address the
mapping assigns to the new top-of-stack index. -/
theorem C10_coeff_address_mapping_stable :
    (∀ (D : ℕ) (first : ℤ) (stride m : ℕ) (ops : List CoeffPoolOp) (i : ℕ),
      (ops.foldl (applyCoeffOp D) (CoeffPool.fresh first stride m)).coeffStack i =
        first + (i : ℤ) * stride) ∧
    (∀ (D : ℕ) (p : CoeffPool) (n : ℕ), n = 2 ^ D →
      p.nNodesCoeff + 1 ≤ (p.maxNodesCoeff : ℤ) →
      p.status (p.nNodesCoeff + 1) = 0 →
      allocCoeffM D p n = some (p.coeffStack (p.nNodesCoeff + 1).toNat,
        { p with
            nNodesCoeff := p.nNodesCoeff + 1
            status := Function.update p.status (p.nNodesCoeff + 1) 1 })) := by
  constructor
  · intro D first stride m ops i
    rw [foldl_coeffStack]
    rfl
  · intro D p n h2 h3 h4
    exact allocCoeffM_success D p n h2 h3 h4

/-- C10 witness: the address-mapping theorem applied to a concrete pool
and a concrete operation sequence. -/
theorem C10_coeff_address_mapping_witness :
    (([CoeffPoolOp.alloc 8, CoeffPoolOp.dealloc 0].foldl (applyCoeffOp 3)
        (CoeffPool.fresh 1000 64 4)).coeffStack 2 = 1000 + (2 : ℤ) * 64) ∧
    allocCoeffM 3 (CoeffPool.fresh 1000 64 4) 8 =
      some ((CoeffPool.fresh 1000 64 4).coeffStack
          ((CoeffPool.fresh 1000 64 4).nNodesCoeff + 1).toNat,
        { CoeffPool.fresh 1000 64 4 with
            nNodesCoeff := (CoeffPool.fresh 1000 64 4).nNodesCoeff + 1
            status := Function.update (CoeffPool.fresh 1000 64 4).status
              ((CoeffPool.fresh 1000 64 4).nNodesCoeff + 1) 1 }) :=
  ⟨C10_coeff_address_mapping_stable.1 3 1000 64 4
      [CoeffPoolOp.alloc 8, CoeffPoolOp.dealloc 0] 2,
   C10_coeff_address_mapping_stable.2 3 (CoeffPool.fresh 1000 64 4) 8 (by norm_num)
      (by norm_num [CoeffPool.fresh]) (by norm_num [CoeffPool.fresh])⟩

/-! ## Tree merge engine (SerialTreeAdd)

Coefficient blocks are flat arrays of doubles in the source; they are
modelled as functions out of the index type, with double arithmetic as a
commutative ring.  N_GenCoeff (the scaling sub-block length kp1^D) is NG
and N_Coeff (the full block length tDim*kp1^D) is NC. -/

/-- The coefficient-combine step of SerialTree::SerialTreeAdd (lines
244-259): with cA/cB the two coefficient blocks and hA/hB the
hasWCoefs flags, A accumulates c times B over the full block when both
have detail, over the scaling sub-block only when B lacks detail, and
when A lacks detail the scaling sub-block accumulates while the detail
sub-block is overwritten by c times B when B has detail (copied, not
added) and left untouched otherwise. -/
def combineCoefs {R : Type} [CommRing R] (c : R) (NG NC : ℕ)
    (cA cB : ℕ → R) (hA hB : Bool) : ℕ → R :=
  if hA then
    if hB then fun i => if i < NC then cA i + c * cB i else cA i
    else fun i => if i < NG then cA i + c * cB i else cA i
  else
    fun i =>
      if i < NG then cA i + c * cB i
      else if hB then (if i < NC then c * cB i else cA i) else cA i

/-- Modelled from the spec: MWNode::calcNorms / getSquareNorm are not under
src; per the spec the node caches its squared norm, the sum of squares of
its coefficient block. -/
def sqNormC {R : Type} [CommRing R] (NC : ℕ) (v : ℕ → R) : R :=
  ∑ i ∈ Finset.range NC, v i * v i

/-- A tree node of the merge model: coefficient block, hasWCoefs flag,
children list (empty for an end node, 2^D entries otherwise). -/
inductive MNode (R : Type) where
  | node : (ℕ → R) → Bool → List (MNode R) → MNode R

def MNode.coefs {R : Type} : MNode R → (ℕ → R)
  | MNode.node c _ _ => c

def MNode.hasW {R : Type} : MNode R → Bool
  | MNode.node _ h _ => h

def MNode.children {R : Type} : MNode R → List (MNode R)
  | MNode.node _ _ ch => ch

mutual

def msize {R : Type} : MNode R → ℕ
  | MNode.node _ _ ch => 1 + msizeL ch

def msizeL {R : Type} : List (MNode R) → ℕ
  | [] => 0
  | t :: ts => msize t + msizeL ts

end

theorem msize_le_of_mem {R : Type} {t : MNode R} :
    ∀ {l : List (MNode R)}, t ∈ l → msize t ≤ msizeL l := by
  intro l
  induction l with
  | nil => intro h; cases h
  | cons a as ih =>
    intro h
    rcases List.mem_cons.1 h with rfl | h2
    · simp [msizeL]
    · calc msize t ≤ msizeL as := ih h2
      _ ≤ _ := by simp [msizeL]

theorem msize_lt_of_mem_children {R : Type} {t : MNode R} {c : ℕ → R}
    {h : Bool} {ch : List (MNode R)} (hm : t ∈ ch) :
    msize t < msize (MNode.node c h ch) := by
  have := msize_le_of_mem hm
  simp only [msize]
  omega

/-- The children made by GenS_nodes on a leaf: 2^D fresh generated leaves,
the g-th holding the coefficient block the synthesis kernel produces from
the parent block; gen abstracts that kernel (S_mwTransform applied through
GenS_nodes).  Generated nodes carry no detail flag. -/
def genList {R : Type} (gen : (ℕ → R) → Bool → ℕ → (ℕ → R))
    (cA : ℕ → R) (hA : Bool) : List (MNode R) :=
  (List.range 8).map fun g => MNode.node (gen cA hA g) false []

theorem msize_of_mem_genList {R : Type} {t : MNode R}
    {gen : (ℕ → R) → Bool → ℕ → (ℕ → R)} {cA : ℕ → R} {hA : Bool}
    (hm : t ∈ genList gen cA hA) : msize t = 1 := by
  unfold genList at hm
  rcases List.mem_map.1 hm with ⟨g, _, rfl⟩
  simp [msize, msizeL]

theorem one_le_msize {R : Type} (t : MNode R) : 1 ≤ msize t := by
  cases t
  simp [msize]

/-- SerialTree::SerialTreeAdd, one twin-stack visit and its descendants,
written as lockstep recursion: when either side has children the leaf side
is given generated children (GenS_nodes) and the pair descends into the
children lists in the same order; at every visited pair the coefficients
are combined per combineCoefs, the node is marked as holding detail, its
norms recomputed, and the squared norm accumulated into the running total
exactly when the node is (after generation) a leaf.  Returns the merged
subtree and the running-total contribution. -/
def mergePair {R : Type} [CommRing R] (gen : (ℕ → R) → Bool → ℕ → (ℕ → R))
    (c : R) (NG NC : ℕ) : MNode R → MNode R → MNode R × R
  | MNode.node cA hA chA, MNode.node cB hB chB =>
    if chA.length + chB.length = 0 then
      let nc := combineCoefs c NG NC cA cB hA hB
      (MNode.node nc true [], sqNormC NC nc)
    else
      let lA := if chA.length = 0 then genList gen cA hA else chA
      let lB := if chB.length = 0 then genList gen cB hB else chB
      let res := (lA.zip lB).attach.map
        (fun x => mergePair gen c NG NC x.val.1 x.val.2)
      let nc := combineCoefs c NG NC cA cB hA hB
      (MNode.node nc true (res.map Prod.fst), (res.map Prod.snd).sum)
termination_by A B => msize A + msize B
decreasing_by
  rename_i hne
  obtain ⟨h1, h2⟩ := List.of_mem_zip x.property
  unfold lA at h1
  unfold lB at h2
  split at h1 <;> split at h2
  · rename_i hA0 hB0
    exact absurd (by omega) hne
  · rename_i hA0 hB0
    have e1 : msize x.val.1 = 1 := msize_of_mem_genList h1
    have e2 : msize x.val.2 < msize (MNode.node cB hB chB) :=
      msize_lt_of_mem_children h2
    have e3 : 1 ≤ msize (MNode.node cA hA chA) := one_le_msize _
    omega
  · rename_i hA0 hB0
    have e1 : msize x.val.1 < msize (MNode.node cA hA chA) :=
      msize_lt_of_mem_children h1
    have e2 : msize x.val.2 = 1 := msize_of_mem_genList h2
    have e3 : 1 ≤ msize (MNode.node cB hB chB) := one_le_msize _
    omega
  · have e1 : msize x.val.1 < msize (MNode.node cA hA chA) :=
      msize_lt_of_mem_children h1
    have e2 : msize x.val.2 < msize (MNode.node cB hB chB) :=
      msize_lt_of_mem_children h2
    omega

mutual

def leafSqSum {R : Type} [CommRing R] (NC : ℕ) : MNode R → R
  | MNode.node c _ [] => sqNormC NC c
  | MNode.node _ _ (t :: ts) => leafSqSumL NC (t :: ts)

def leafSqSumL {R : Type} [CommRing R] (NC : ℕ) : List (MNode R) → R
  | [] => 0
  | t :: ts => leafSqSum NC t + leafSqSumL NC ts

end

mutual

def allW {R : Type} : MNode R → Bool
  | MNode.node _ h ch => h && allWL ch

def allWL {R : Type} : List (MNode R) → Bool
  | [] => true
  | t :: ts => allW t && allWL ts

end

/-- Result of SerialTreeAdd: the merged tree and the squared norm the code
stores on the tree header (this->getTree()->squareNorm = Tsum). -/
structure AddResult (R : Type) where
  tree : MNode R
  squareNorm : R

def serialTreeAddM {R : Type} [CommRing R] (gen : (ℕ → R) → Bool → ℕ → (ℕ → R))
    (c : R) (NG NC : ℕ) (A B : MNode R) : AddResult R :=
  let r := mergePair gen c NG NC A B
  { tree := r.1, squareNorm := r.2 }

theorem leafSqSumL_map {R : Type} [CommRing R] (NC : ℕ) :
    ∀ (l : List (MNode R × R)), (∀ x ∈ l, x.2 = leafSqSum NC x.1) →
    (l.map Prod.snd).sum = leafSqSumL NC (l.map Prod.fst) := by
  intro l
  induction l with
  | nil => intro _; simp [leafSqSumL]
  | cons a as ih =>
    intro h
    simp only [List.map_cons, List.sum_cons, leafSqSumL]
    rw [h a (by simp), ih (fun x hx => h x (by simp [hx]))]

theorem allWL_map {R : Type} :
    ∀ (l : List (MNode R)), (∀ x ∈ l, allW x = true) → allWL l = true := by
  intro l
  induction l with
  | nil => intro _; rfl
  | cons a as ih =>
    intro h
    simp only [allWL, Bool.and_eq_true]
    exact ⟨h a (by simp), ih (fun x hx => h x (by simp [hx]))⟩

theorem leafSqSum_node_ne_nil {R : Type} [CommRing R] (NC : ℕ) (c : ℕ → R)
    (h : Bool) {l : List (MNode R)} (hl : l ≠ []) :
    leafSqSum NC (MNode.node c h l) = leafSqSumL NC l := by
  cases l
  · exact absurd rfl hl
  · rfl

theorem mergePair_snd_leafSqSum {R : Type} [CommRing R]
    (gen : (ℕ → R) → Bool → ℕ → (ℕ → R)) (c : R) (NG NC : ℕ) :
    ∀ (A B : MNode R),
      (mergePair gen c NG NC A B).2 = leafSqSum NC (mergePair gen c NG NC A B).1 := by
  intro A B
  induction A, B using mergePair.induct gen c NG NC with
  | case1 cA hA chA cB hB chB hlen =>
    rw [mergePair]
    have hA0 : chA = [] := by
      cases chA
      · rfl
      · exact absurd hlen (by simp)
    subst hA0
    have hB0 : chB = [] := by
      cases chB
      · rfl
      · exact absurd hlen (by simp)
    subst hB0
    simp only [if_pos rfl]
    rfl
  | case2 cA hA chA cB hB chB hlen lA0 lB0 ih =>
    rw [mergePair]
    rw [if_neg hlen]
    have hres : ∀ y ∈ ((if chA.length = 0 then genList gen cA hA else chA).zip
        (if chB.length = 0 then genList gen cB hB else chB)).attach.map
        (fun x => mergePair gen c NG NC x.val.1 x.val.2),
        y.2 = leafSqSum NC y.1 := by
      intro y hy
      rcases List.mem_map.1 hy with ⟨x, hx, rfl⟩
      exact ih x
    set res := ((if chA.length = 0 then genList gen cA hA else chA).zip
        (if chB.length = 0 then genList gen cB hB else chB)).attach.map
        (fun x => mergePair gen c NG NC x.val.1 x.val.2) with hres_def
    have hkey := leafSqSumL_map NC res hres
    have hlenA : 0 < (if chA.length = 0 then genList gen cA hA else chA).length := by
      split
      · simp [genList]
      · rename_i h
        omega
    have hlenB : 0 < (if chB.length = 0 then genList gen cB hB else chB).length := by
      split
      · simp [genList]
      · rename_i h
        omega
    have hreslen : 0 < res.length := by
      rw [hres_def]
      simp only [List.length_map, List.length_attach, List.length_zip]
      omega
    have hmapne : res.map Prod.fst ≠ [] := by
      intro hc
      have hlc := congrArg List.length hc
      simp only [List.length_map, List.length_nil] at hlc
      omega
    show (res.map Prod.snd).sum =
      leafSqSum NC (MNode.node (combineCoefs c NG NC cA cB hA hB) true (res.map Prod.fst))
    rw [leafSqSum_node_ne_nil NC _ true hmapne]
    exact hkey

/-- C6: norm accounting of the top-down merge.  After each visited pair is
combined the node norms are recomputed and the squared norm enters the
running total exactly when the node is a leaf at that moment; when the
merge finishes, the squared norm stored on the result tree header equals
the sum of the squared norms over the leaf nodes of the result tree. -/
theorem C6_merge_norm_accounting {R : Type} [CommRing R]
    (gen : (ℕ → R) → Bool → ℕ → (ℕ → R)) (c : R) (NG NC : ℕ) (A B : MNode R) :
    (serialTreeAddM gen c NG NC A B).squareNorm =
      leafSqSum NC (serialTreeAddM gen c NG NC A B).tree :=
  mergePair_snd_leafSqSum gen c NG NC A B

/-- C9 (implicit-claim): after combining any visited pair, SerialTreeAdd
calls setHasWCoefs() unconditionally — outside the detail-flag case split —
so every node of the merged result reports holding valid detail
coefficients, in all four rows of the combine table.  (Modelled from the
spec for the flag setter itself: MWNode::setHasWCoefs is not under src and
is taken to set hasDetailCoefficients to true.) -/
theorem C9_hasW_marked_unconditionally {R : Type} [CommRing R]
    (gen : (ℕ → R) → Bool → ℕ → (ℕ → R)) (c : R) (NG NC : ℕ) (A B : MNode R) :
    allW (mergePair gen c NG NC A B).1 = true := by
  induction A, B using mergePair.induct gen c NG NC with
  | case1 cA hA chA cB hB chB hlen =>
    rw [mergePair]
    have hA0 : chA = [] := by
      cases chA
      · rfl
      · exact absurd hlen (by simp)
    subst hA0
    have hB0 : chB = [] := by
      cases chB
      · rfl
      · exact absurd hlen (by simp)
    subst hB0
    simp only [if_pos rfl]
    rfl
  | case2 cA hA chA cB hB chB hlen lA0 lB0 ih =>
    rw [mergePair]
    rw [if_neg hlen]
    show allW (MNode.node _ true _) = true
    simp only [allW, Bool.true_and]
    apply allWL_map
    intro x hx
    rcases List.mem_map.1 hx with ⟨y, hy, rfl⟩
    rcases List.mem_map.1 hy with ⟨z, hz, rfl⟩
    exact ih z

/-- C1: the merge combine policy.  When A has detail and B does not, the
scaling sub-block accumulates A + c*B and the detail sub-block of A is left
unmodified; when A has no detail and B has detail, the scaling sub-block
accumulates and the detail sub-block is overwritten with c*B (copy, not
add) and the node is marked as holding valid detail (the merged leaf node
carries hasW = true); in particular for scale 2 the result detail
sub-block is 2 times B's detail sub-block and the scaling sub-block is the
accumulated sum. -/
theorem C1_merge_combine_policy {R : Type} [CommRing R]
    (gen : (ℕ → R) → Bool → ℕ → (ℕ → R)) (c : R) (NG NC : ℕ)
    (cA cB : ℕ → R) (hA hB : Bool) :
    (hA = true → hB = false →
      (∀ i, i < NG → combineCoefs c NG NC cA cB hA hB i = cA i + c * cB i) ∧
      (∀ i, NG ≤ i → combineCoefs c NG NC cA cB hA hB i = cA i)) ∧
    (hA = false → hB = true →
      (∀ i, i < NG → combineCoefs c NG NC cA cB hA hB i = cA i + c * cB i) ∧
      (∀ i, NG ≤ i → i < NC → combineCoefs c NG NC cA cB hA hB i = c * cB i)) ∧
    (mergePair gen c NG NC (MNode.node cA hA []) (MNode.node cB hB []) =
      (MNode.node (combineCoefs c NG NC cA cB hA hB) true [],
        sqNormC NC (combineCoefs c NG NC cA cB hA hB))) ∧
    (c = 2 → hA = false → hB = true →
      (∀ i, NG ≤ i → i < NC → combineCoefs c NG NC cA cB hA hB i = 2 * cB i) ∧
      (∀ i, i < NG → combineCoefs c NG NC cA cB hA hB i = cA i + 2 * cB i)) := by
  refine ⟨?_, ?_, ?_, ?_⟩
  · rintro rfl rfl
    constructor
    · intro i hi
      simp [combineCoefs, hi]
    · intro i hi
      have hni : ¬i < NG := by omega
      simp [combineCoefs, hni]
  · rintro rfl rfl
    constructor
    · intro i hi
      simp [combineCoefs, hi]
    · intro i hi1 hi2
      have hni : ¬i < NG := by omega
      simp [combineCoefs, hni, hi2]
  · rw [mergePair]
    rfl
  · rintro rfl rfl rfl
    constructor
    · intro i hi1 hi2
      have hni : ¬i < NG := by omega
      simp [combineCoefs, hni, hi2]
    · intro i hi
      simp [combineCoefs, hi]

/-- C1 witness: the combine-policy theorem applied over the rationals with
NG = 1, NC = 2, scale 2, a coefficient block holding 3 everywhere against
one holding 5 everywhere (A without detail, B with detail), and a second
pair 7 against 11 (A with detail, B without). -/
theorem C1_merge_combine_policy_witness :
    combineCoefs (2 : ℚ) 1 2 (fun _ => 3) (fun _ => 5) false true 0 =
      (fun _ => (3 : ℚ)) 0 + 2 * (fun _ => (5 : ℚ)) 0 ∧
    combineCoefs (2 : ℚ) 1 2 (fun _ => 3) (fun _ => 5) false true 1 =
      2 * (fun _ => (5 : ℚ)) 1 ∧
    combineCoefs (2 : ℚ) 1 2 (fun _ => 7) (fun _ => 11) true false 1 =
      (fun _ => (7 : ℚ)) 1 ∧
    mergePair (fun cc _ _ => cc) (2 : ℚ) 1 2
        (MNode.node (fun _ => 3) false []) (MNode.node (fun _ => 5) true []) =
      (MNode.node (combineCoefs (2 : ℚ) 1 2 (fun _ => 3) (fun _ => 5) false true) true [],
        sqNormC 2 (combineCoefs (2 : ℚ) 1 2 (fun _ => 3) (fun _ => 5) false true)) :=
  ⟨((C1_merge_combine_policy (fun cc _ _ => cc) (2 : ℚ) 1 2
      (fun _ => 3) (fun _ => 5) false true).2.1 rfl rfl).1 0 (by decide),
   ((C1_merge_combine_policy (fun cc _ _ => cc) (2 : ℚ) 1 2
      (fun _ => 3) (fun _ => 5) false true).2.2.2 rfl rfl rfl).1 1 (by decide) (by decide),
   ((C1_merge_combine_policy (fun cc _ _ => cc) (2 : ℚ) 1 2
      (fun _ => 7) (fun _ => 11) true false).1 rfl rfl).2 1 (by decide),
   (C1_merge_combine_policy (fun cc _ _ => cc) (2 : ℚ) 1 2
      (fun _ => 3) (fun _ => 5) false true).2.2.1⟩

/-! ## Wavelet transform kernel (S_mwTransform / S_mwTransformBack, D = 3)

A coefficient sub-block of kp1^3 doubles laid out x-fastest is modelled as
a third-order tensor Vec; a kp1 x kp1 filter block as Mat.  A full node
block of tDim = 8 sub-blocks is a family indexed by the octant number.
The source requires D = 3 (MSG_FATAL otherwise); the model fixes the
three-axis structure accordingly. -/

abbrev Mat (R : Type) (K : ℕ) := Fin K → Fin K → R

abbrev Vec (R : Type) (K : ℕ) := Fin K → Fin K → Fin K → R

/-- The four synthesis/analysis filter blocks of MWFilter (G0, G1, H0, H1
of MWFilter.cpp, fillFilterBlocks). -/
structure FilterBank (R : Type) (K : ℕ) where
  H0 : Mat R K
  H1 : Mat R K
  G0 : Mat R K
  G1 : Mat R K

def transp {R : Type} {K : ℕ} (M : Mat R K) : Mat R K := fun a b => M b a

/-- MWFilter::getSubFilter for operation Reconstruction: 0 -> H0, 1 -> G0,
2 -> H1, 3 -> G1; any other index is a fatal filter error in the source
(modelled as the zero matrix, never reached by the kernel). -/
def reconFilter {R : Type} {K : ℕ} [CommRing R] (fb : FilterBank R K) : ℕ → Mat R K
  | 0 => fb.H0
  | 1 => fb.G0
  | 2 => fb.H1
  | 3 => fb.G1
  | _ => fun _ _ => 0

/-- MWFilter::getSubFilter for operation Compression: 0 -> H0t, 1 -> H1t,
2 -> G0t, 3 -> G1t. -/
def compFilter {R : Type} {K : ℕ} [CommRing R] (fb : FilterBank R K) : ℕ → Mat R K
  | 0 => transp fb.H0
  | 1 => transp fb.H1
  | 2 => transp fb.G0
  | 3 => transp fb.G1
  | _ => fun _ _ => 0

/-- Modelled from the spec: MathUtils::applyFilter is not under src.  Per
the spec it applies one small dense filter matrix to the coefficient
buffer, accumulating into the output with an explicit overwrite (fac = 0)
versus accumulate (fac = 1) flag: viewing the input as a kp1 x kp1_dm1
matrix, out := fac * out + in^T * oper, which filters the fastest axis and
rotates it to the slowest position. -/
def applyFilterM {R : Type} [CommRing R] {K : ℕ} (out inp : Vec R K)
    (oper : Mat R K) (fac : R) : Vec R K :=
  fun y z j => fac * out y z j + ∑ x, inp x y z * oper x j

/-- One gt iteration of a transform sweep: loop ft over range ftlim, act
when (gt | mask) == (ft | mask) with sub-filter index
2*((gt >> i) & 1) + ((ft >> i) & 1), with the overwrite flag starting at
0.0 and set to 1.0 after every filter application, exactly as in
S_mwTransform / S_mwTransformBack. -/
def sweepGt {R : Type} [CommRing R] {K : ℕ} (oper : ℕ → Mat R K)
    (inp : ℕ → Vec R K) (i mask ftlim : ℕ) (gt : ℕ) (init : Vec R K) : Vec R K :=
  ((List.range ftlim).foldl
    (fun (st : Vec R K × R) ft =>
      if gt ||| mask = ft ||| mask then
        (applyFilterM st.1 (inp ft)
          (oper (2 * ((gt >>> i) &&& 1) + ((ft >>> i) &&& 1))) st.2, 1)
      else st)
    (init, 0)).1

/-- A whole sweep: the output block family, each octant produced by its gt
iteration over the previous content prev of the output buffer. -/
def sweep {R : Type} [CommRing R] {K : ℕ} (oper : ℕ → Mat R K)
    (inp prev : ℕ → Vec R K) (i mask ftlim : ℕ) : ℕ → Vec R K :=
  fun gt => sweepGt oper inp i mask ftlim gt (prev gt)

/-- SerialTree::S_mwTransform (D = 3): three sweeps with masks 1, 2, 4 over
the Reconstruction sub-filters; in ReadOnlyScalingCoeff mode the ft limits
are 1, 2, 4 instead of 8.  coeffIn is the parent block (8 sub-blocks);
scratch0 is the previous content of the first sweep's output area (the
first child's node block, doubling as scratch), tmp0 of the stack buffer
tmpcoeff, chPrev of the children scaling blocks written by the third sweep
(for gt = 0 that area aliases the scratch).  The result is the family of
children scaling blocks. -/
def s_mwTransform {R : Type} [CommRing R] {K : ℕ} (fb : FilterBank R K)
    (coeffIn : ℕ → Vec R K) (ReadOnlyScalingCoeff : Bool)
    (scratch0 tmp0 chPrev : ℕ → Vec R K) : ℕ → Vec R K :=
  let ftlim := if ReadOnlyScalingCoeff then 1 else 8
  let ftlim2 := if ReadOnlyScalingCoeff then 2 else 8
  let ftlim3 := if ReadOnlyScalingCoeff then 4 else 8
  let buf1 := sweep (reconFilter fb) coeffIn scratch0 0 1 ftlim
  let buf2 := sweep (reconFilter fb) buf1 tmp0 1 2 ftlim2
  sweep (reconFilter fb) buf2 chPrev 2 4 ftlim3

/-- SerialTree::S_mwTransformBack (D = 3): three sweeps with masks 1, 2, 4
over the Compression sub-filters, all ft limits 8.  coeffIn is the family
of children scaling blocks (read at stride Children_Stride), parentPrev
the previous content of the parent block (overwritten by the first and
third sweeps — the third sweep's output area is the parent block again,
whose content after the first sweep is buf1), tmp0 the stack buffer.  The
result is the full parent block. -/
def s_mwTransformBack {R : Type} [CommRing R] {K : ℕ} (fb : FilterBank R K)
    (coeffIn : ℕ → Vec R K) (parentPrev tmp0 : ℕ → Vec R K) : ℕ → Vec R K :=
  let buf1 := sweep (compFilter fb) coeffIn parentPrev 0 1 8
  let buf2 := sweep (compFilter fb) buf1 tmp0 1 2 8
  sweep (compFilter fb) buf2 buf1 2 4 8

/-! ### Algebra of single-axis filter applications

applyAx is the pure (overwrite-mode) filter application; applyFst, applyMid
and applyLast act on one fixed tensor slot without rotation.  A chain of
three rotating applications equals the three positional applications, which
is what makes the three-sweep pipelines composable. -/

def applyAx {R : Type} [CommRing R] {K : ℕ} (M : Mat R K) (v : Vec R K) : Vec R K :=
  fun y z j => ∑ x, v x y z * M x j

def applyFst {R : Type} [CommRing R] {K : ℕ} (M : Mat R K) (w : Vec R K) : Vec R K :=
  fun a q r => ∑ p, w p q r * M p a

def applyMid {R : Type} [CommRing R] {K : ℕ} (M : Mat R K) (w : Vec R K) : Vec R K :=
  fun p b r => ∑ q, w p q r * M q b

def applyLast {R : Type} [CommRing R] {K : ℕ} (M : Mat R K) (w : Vec R K) : Vec R K :=
  fun p q c => ∑ r, w p q r * M r c

def mm {R : Type} [CommRing R] {K : ℕ} (X Y : Mat R K) : Mat R K :=
  fun x j => ∑ m, X x m * Y m j

def idM {R : Type} [CommRing R] {K : ℕ} : Mat R K :=
  fun x y => if x = y then 1 else 0

def chainT {R : Type} [CommRing R] {K : ℕ} (M₁ M₂ M₃ : Mat R K) (v : Vec R K) : Vec R K :=
  applyAx M₃ (applyAx M₂ (applyAx M₁ v))

theorem chainT_positional {R : Type} [CommRing R] {K : ℕ}
    (M₁ M₂ M₃ : Mat R K) (v : Vec R K) :
    chainT M₁ M₂ M₃ v = applyLast M₃ (applyMid M₂ (applyFst M₁ v)) := rfl

theorem applyFst_applyLast {R : Type} [CommRing R] {K : ℕ}
    (X Y : Mat R K) (w : Vec R K) :
    applyFst X (applyLast Y w) = applyLast Y (applyFst X w) := by
  funext a q c
  simp only [applyFst, applyLast, Finset.sum_mul]
  rw [Finset.sum_comm]
  refine Finset.sum_congr rfl fun p _ => Finset.sum_congr rfl fun r _ => by ring

theorem applyFst_applyMid {R : Type} [CommRing R] {K : ℕ}
    (X Y : Mat R K) (w : Vec R K) :
    applyFst X (applyMid Y w) = applyMid Y (applyFst X w) := by
  funext a b r
  simp only [applyFst, applyMid, Finset.sum_mul]
  rw [Finset.sum_comm]
  refine Finset.sum_congr rfl fun p _ => Finset.sum_congr rfl fun q _ => by ring

theorem applyMid_applyLast {R : Type} [CommRing R] {K : ℕ}
    (X Y : Mat R K) (w : Vec R K) :
    applyMid X (applyLast Y w) = applyLast Y (applyMid X w) := by
  funext p b c
  simp only [applyMid, applyLast, Finset.sum_mul]
  rw [Finset.sum_comm]
  refine Finset.sum_congr rfl fun q _ => Finset.sum_congr rfl fun r _ => by ring

theorem applyFst_applyFst {R : Type} [CommRing R] {K : ℕ}
    (X Y : Mat R K) (w : Vec R K) :
    applyFst Y (applyFst X w) = applyFst (mm X Y) w := by
  funext a q r
  simp only [applyFst, mm, Finset.sum_mul, Finset.mul_sum]
  rw [Finset.sum_comm]
  refine Finset.sum_congr rfl fun p _ => Finset.sum_congr rfl fun j _ => by ring

theorem applyMid_applyMid {R : Type} [CommRing R] {K : ℕ}
    (X Y : Mat R K) (w : Vec R K) :
    applyMid Y (applyMid X w) = applyMid (mm X Y) w := by
  funext p b r
  simp only [applyMid, mm, Finset.sum_mul, Finset.mul_sum]
  rw [Finset.sum_comm]
  refine Finset.sum_congr rfl fun q _ => Finset.sum_congr rfl fun j _ => by ring

theorem applyLast_applyLast {R : Type} [CommRing R] {K : ℕ}
    (X Y : Mat R K) (w : Vec R K) :
    applyLast Y (applyLast X w) = applyLast (mm X Y) w := by
  funext p q c
  simp only [applyLast, mm, Finset.sum_mul, Finset.mul_sum]
  rw [Finset.sum_comm]
  refine Finset.sum_congr rfl fun r _ => Finset.sum_congr rfl fun j _ => by ring

theorem chainT_comp {R : Type} [CommRing R] {K : ℕ}
    (A B C D E F : Mat R K) (v : Vec R K) :
    chainT A B C (chainT D E F v) = chainT (mm D A) (mm E B) (mm F C) v := by
  rw [chainT_positional, chainT_positional, chainT_positional]
  rw [applyFst_applyLast, applyFst_applyMid, applyFst_applyFst]
  rw [applyMid_applyLast, applyMid_applyMid, applyLast_applyLast]

theorem applyFst_matAdd {R : Type} [CommRing R] {K : ℕ}
    (X Y : Mat R K) (w : Vec R K) :
    applyFst (X + Y) w = applyFst X w + applyFst Y w := by
  funext a q r
  simp [applyFst, mul_add, Finset.sum_add_distrib]

theorem applyMid_matAdd {R : Type} [CommRing R] {K : ℕ}
    (X Y : Mat R K) (w : Vec R K) :
    applyMid (X + Y) w = applyMid X w + applyMid Y w := by
  funext p b r
  simp [applyMid, mul_add, Finset.sum_add_distrib]

theorem applyLast_matAdd {R : Type} [CommRing R] {K : ℕ}
    (X Y : Mat R K) (w : Vec R K) :
    applyLast (X + Y) w = applyLast X w + applyLast Y w := by
  funext p q c
  simp [applyLast, mul_add, Finset.sum_add_distrib]

theorem applyMid_vecAdd {R : Type} [CommRing R] {K : ℕ}
    (M : Mat R K) (w w' : Vec R K) :
    applyMid M (w + w') = applyMid M w + applyMid M w' := by
  funext p b r
  simp [applyMid, add_mul, Finset.sum_add_distrib]

theorem applyLast_vecAdd {R : Type} [CommRing R] {K : ℕ}
    (M : Mat R K) (w w' : Vec R K) :
    applyLast M (w + w') = applyLast M w + applyLast M w' := by
  funext p q c
  simp [applyLast, add_mul, Finset.sum_add_distrib]

theorem applyFst_matZero {R : Type} [CommRing R] {K : ℕ} (w : Vec R K) :
    applyFst (0 : Mat R K) w = 0 := by
  funext a q r
  simp [applyFst]

theorem applyMid_matZero {R : Type} [CommRing R] {K : ℕ} (w : Vec R K) :
    applyMid (0 : Mat R K) w = 0 := by
  funext p b r
  simp [applyMid]

theorem applyLast_matZero {R : Type} [CommRing R] {K : ℕ} (w : Vec R K) :
    applyLast (0 : Mat R K) w = 0 := by
  funext p q c
  simp [applyLast]

theorem applyMid_vecZero {R : Type} [CommRing R] {K : ℕ} (M : Mat R K) :
    applyMid M (0 : Vec R K) = 0 := by
  funext p b r
  simp [applyMid]

theorem applyLast_vecZero {R : Type} [CommRing R] {K : ℕ} (M : Mat R K) :
    applyLast M (0 : Vec R K) = 0 := by
  funext p q c
  simp [applyLast]

theorem applyFst_id {R : Type} [CommRing R] {K : ℕ} (w : Vec R K) :
    applyFst (idM : Mat R K) w = w := by
  funext a q r
  simp [applyFst, idM, mul_ite, mul_one, mul_zero]

theorem applyMid_id {R : Type} [CommRing R] {K : ℕ} (w : Vec R K) :
    applyMid (idM : Mat R K) w = w := by
  funext p b r
  simp [applyMid, idM, mul_ite, mul_one, mul_zero]

theorem applyLast_id {R : Type} [CommRing R] {K : ℕ} (w : Vec R K) :
    applyLast (idM : Mat R K) w = w := by
  funext p q c
  simp [applyLast, idM, mul_ite, mul_one, mul_zero]

theorem chainT_add₁ {R : Type} [CommRing R] {K : ℕ}
    (X Y B C : Mat R K) (v : Vec R K) :
    chainT (X + Y) B C v = chainT X B C v + chainT Y B C v := by
  rw [chainT_positional, chainT_positional, chainT_positional]
  rw [applyFst_matAdd, applyMid_vecAdd, applyLast_vecAdd]

theorem chainT_add₂ {R : Type} [CommRing R] {K : ℕ}
    (A X Y C : Mat R K) (v : Vec R K) :
    chainT A (X + Y) C v = chainT A X C v + chainT A Y C v := by
  rw [chainT_positional, chainT_positional, chainT_positional]
  rw [applyMid_matAdd, applyLast_vecAdd]

theorem chainT_add₃ {R : Type} [CommRing R] {K : ℕ}
    (A B X Y : Mat R K) (v : Vec R K) :
    chainT A B (X + Y) v = chainT A B X v + chainT A B Y v := by
  rw [chainT_positional, chainT_positional, chainT_positional]
  rw [applyLast_matAdd]

theorem chainT_zero₁ {R : Type} [CommRing R] {K : ℕ}
    (B C : Mat R K) (v : Vec R K) :
    chainT (0 : Mat R K) B C v = 0 := by
  rw [chainT_positional, applyFst_matZero, applyMid_vecZero, applyLast_vecZero]

theorem chainT_zero₂ {R : Type} [CommRing R] {K : ℕ}
    (A C : Mat R K) (v : Vec R K) :
    chainT A (0 : Mat R K) C v = 0 := by
  rw [chainT_positional, applyMid_matZero, applyLast_vecZero]

theorem chainT_zero₃ {R : Type} [CommRing R] {K : ℕ}
    (A B : Mat R K) (v : Vec R K) :
    chainT A B (0 : Mat R K) v = 0 := by
  rw [chainT_positional, applyLast_matZero]

theorem chainT_id {R : Type} [CommRing R] {K : ℕ} (v : Vec R K) :
    chainT (idM : Mat R K) idM idM v = v := by
  rw [chainT_positional, applyFst_id, applyMid_id, applyLast_id]

theorem sum_two_chainT₁ {R : Type} [CommRing R] {K : ℕ}
    (X : ℕ → Mat R K) (B C : Mat R K) (v : Vec R K) :
    (∑ a ∈ Finset.range 2, chainT (X a) B C v) = chainT (X 0 + X 1) B C v := by
  rw [Finset.sum_range_succ, Finset.sum_range_succ, Finset.sum_range_zero,
    zero_add, chainT_add₁]

theorem sum_two_chainT₂ {R : Type} [CommRing R] {K : ℕ}
    (A : Mat R K) (X : ℕ → Mat R K) (C : Mat R K) (v : Vec R K) :
    (∑ a ∈ Finset.range 2, chainT A (X a) C v) = chainT A (X 0 + X 1) C v := by
  rw [Finset.sum_range_succ, Finset.sum_range_succ, Finset.sum_range_zero,
    zero_add, chainT_add₂]

theorem sum_two_chainT₃ {R : Type} [CommRing R] {K : ℕ}
    (A B : Mat R K) (X : ℕ → Mat R K) (v : Vec R K) :
    (∑ a ∈ Finset.range 2, chainT A B (X a) v) = chainT A B (X 0 + X 1) v := by
  rw [Finset.sum_range_succ, Finset.sum_range_succ, Finset.sum_range_zero,
    zero_add, chainT_add₃]

theorem chainT_sum {R : Type} [CommRing R] {K : ℕ} {ι : Type}
    (A B C : Mat R K) (s : Finset ι) (v : ι → Vec R K) :
    chainT A B C (∑ e ∈ s, v e) = ∑ e ∈ s, chainT A B C (v e) := by
  classical
  induction s using Finset.induction_on with
  | empty =>
    simp only [Finset.sum_empty]
    rw [chainT_positional]
    rw [show (0 : Vec R K) = (0 : Vec R K) from rfl]
    funext p q c
    simp [applyFst, applyMid, applyLast]
  | insert hnotmem ih =>
    rename_i a s
    rw [Finset.sum_insert hnotmem, Finset.sum_insert hnotmem, ← ih]
    rw [chainT_positional, chainT_positional, chainT_positional]
    have hFst : applyFst A (v a + ∑ e ∈ s, v e) =
        applyFst A (v a) + applyFst A (∑ e ∈ s, v e) := by
      funext x y z
      simp [applyFst, add_mul, Finset.sum_add_distrib]
    rw [hFst, applyMid_vecAdd, applyLast_vecAdd]

theorem applyAx_add {R : Type} [CommRing R] {K : ℕ} (M : Mat R K) (v w : Vec R K) :
    applyAx M (v + w) = applyAx M v + applyAx M w := by
  funext y z j
  simp [applyAx, add_mul, Finset.sum_add_distrib]

/-- Two filter applications into the same block, the first with the
overwrite flag 0.0 and the second with 1.0, amount to the sum of the two
pure applications; the previous buffer content is discarded. -/
theorem applyFilterM_two {R : Type} [CommRing R] {K : ℕ}
    (p v₁ : Vec R K) (M₁ : Mat R K) (v₂ : Vec R K) (M₂ : Mat R K) :
    applyFilterM (applyFilterM p v₁ M₁ 0) v₂ M₂ 1 = applyAx M₁ v₁ + applyAx M₂ v₂ := by
  funext y z j
  show 1 * (0 * p y z j + _) + _ = _
  simp only [applyAx, Pi.add_apply]
  ring

theorem sweep_char_ax0 {R : Type} [CommRing R] {K : ℕ} (oper : ℕ → Mat R K)
    (inp prev : ℕ → Vec R K) (gt : ℕ) (h : gt < 8) :
    sweep oper inp prev 0 1 8 gt =
      applyAx (oper (2 * ((gt >>> 0) &&& 1))) (inp (gt &&& 6)) +
        applyAx (oper (2 * ((gt >>> 0) &&& 1) + 1)) (inp (gt ||| 1)) := by
  interval_cases gt <;> exact applyFilterM_two _ _ _ _ _

theorem sweep_char_ax1 {R : Type} [CommRing R] {K : ℕ} (oper : ℕ → Mat R K)
    (inp prev : ℕ → Vec R K) (gt : ℕ) (h : gt < 8) :
    sweep oper inp prev 1 2 8 gt =
      applyAx (oper (2 * ((gt >>> 1) &&& 1))) (inp (gt &&& 5)) +
        applyAx (oper (2 * ((gt >>> 1) &&& 1) + 1)) (inp (gt ||| 2)) := by
  interval_cases gt <;> exact applyFilterM_two _ _ _ _ _

theorem sweep_char_ax2 {R : Type} [CommRing R] {K : ℕ} (oper : ℕ → Mat R K)
    (inp prev : ℕ → Vec R K) (gt : ℕ) (h : gt < 8) :
    sweep oper inp prev 2 4 8 gt =
      applyAx (oper (2 * ((gt >>> 2) &&& 1))) (inp (gt &&& 3)) +
        applyAx (oper (2 * ((gt >>> 2) &&& 1) + 1)) (inp (gt ||| 4)) := by
  interval_cases gt <;> exact applyFilterM_two _ _ _ _ _

/-- The full three-level overwrite/accumulate tree of one output octant of
a three-sweep pipeline, as the sum of the eight filter chains. -/
theorem pipeline_eight {R : Type} [CommRing R] {K : ℕ}
    {P₁ P₂ P₃ P₄ P₅ P₆ P₇ P₈ N₁ N₂ N₃ N₄ M₁ M₂ : Mat R K}
    {v₁ v₂ v₃ v₄ v₅ v₆ v₇ v₈ s₁ s₂ s₃ s₄ t₁ t₂ c₀ : Vec R K} :
    applyFilterM
      (applyFilterM c₀
        (applyFilterM
          (applyFilterM t₁
            (applyFilterM (applyFilterM s₁ v₁ P₁ 0) v₂ P₂ 1) N₁ 0)
          (applyFilterM (applyFilterM s₂ v₃ P₃ 0) v₄ P₄ 1) N₂ 1) M₁ 0)
      (applyFilterM
        (applyFilterM t₂
          (applyFilterM (applyFilterM s₃ v₅ P₅ 0) v₆ P₆ 1) N₃ 0)
        (applyFilterM (applyFilterM s₄ v₇ P₇ 0) v₈ P₈ 1) N₄ 1) M₂ 1 =
    chainT P₁ N₁ M₁ v₁ + chainT P₂ N₁ M₁ v₂ + chainT P₃ N₂ M₁ v₃ + chainT P₄ N₂ M₁ v₄ +
      chainT P₅ N₃ M₂ v₅ + chainT P₆ N₃ M₂ v₆ + chainT P₇ N₄ M₂ v₇ + chainT P₈ N₄ M₂ v₈ := by
  simp only [applyFilterM_two, applyAx_add, chainT]
  abel

theorem sum_range8_expand {M : Type} [AddCommMonoid M] (F : ℕ → M) :
    ∑ f ∈ Finset.range 8, F f = F 0 + F 1 + F 2 + F 3 + F 4 + F 5 + F 6 + F 7 := by
  rw [Finset.sum_range_succ, Finset.sum_range_succ, Finset.sum_range_succ,
    Finset.sum_range_succ, Finset.sum_range_succ, Finset.sum_range_succ,
    Finset.sum_range_succ, Finset.sum_range_succ, Finset.sum_range_zero, zero_add]

theorem bitv00 : ((0 : ℕ) >>> 0) &&& 1 = 0 := rfl

theorem bitv01 : ((0 : ℕ) >>> 1) &&& 1 = 0 := rfl

theorem bitv02 : ((0 : ℕ) >>> 2) &&& 1 = 0 := rfl

theorem bitv10 : ((1 : ℕ) >>> 0) &&& 1 = 1 := rfl

theorem bitv11 : ((1 : ℕ) >>> 1) &&& 1 = 0 := rfl

theorem bitv12 : ((1 : ℕ) >>> 2) &&& 1 = 0 := rfl

theorem bitv20 : ((2 : ℕ) >>> 0) &&& 1 = 0 := rfl

theorem bitv21 : ((2 : ℕ) >>> 1) &&& 1 = 1 := rfl

theorem bitv22 : ((2 : ℕ) >>> 2) &&& 1 = 0 := rfl

theorem bitv30 : ((3 : ℕ) >>> 0) &&& 1 = 1 := rfl

theorem bitv31 : ((3 : ℕ) >>> 1) &&& 1 = 1 := rfl

theorem bitv32 : ((3 : ℕ) >>> 2) &&& 1 = 0 := rfl

theorem bitv40 : ((4 : ℕ) >>> 0) &&& 1 = 0 := rfl

theorem bitv41 : ((4 : ℕ) >>> 1) &&& 1 = 0 := rfl

theorem bitv42 : ((4 : ℕ) >>> 2) &&& 1 = 1 := rfl

theorem bitv50 : ((5 : ℕ) >>> 0) &&& 1 = 1 := rfl

theorem bitv51 : ((5 : ℕ) >>> 1) &&& 1 = 0 := rfl

theorem bitv52 : ((5 : ℕ) >>> 2) &&& 1 = 1 := rfl

theorem bitv60 : ((6 : ℕ) >>> 0) &&& 1 = 0 := rfl

theorem bitv61 : ((6 : ℕ) >>> 1) &&& 1 = 1 := rfl

theorem bitv62 : ((6 : ℕ) >>> 2) &&& 1 = 1 := rfl

theorem bitv70 : ((7 : ℕ) >>> 0) &&& 1 = 1 := rfl

theorem bitv71 : ((7 : ℕ) >>> 1) &&& 1 = 1 := rfl

theorem bitv72 : ((7 : ℕ) >>> 2) &&& 1 = 1 := rfl

/-- The mathematical content of the full-mode synthesis pipeline: each
child scaling block is the sum over the parent sub-blocks of the triple
filter chain selected by the octant bit pairs. -/
def synthSpec {R : Type} [CommRing R] {K : ℕ} (fb : FilterBank R K)
    (p : ℕ → Vec R K) (gt : ℕ) : Vec R K :=
  ∑ f ∈ Finset.range 8,
    chainT (reconFilter fb (2 * ((gt >>> 0) &&& 1) + ((f >>> 0) &&& 1)))
      (reconFilter fb (2 * ((gt >>> 1) &&& 1) + ((f >>> 1) &&& 1)))
      (reconFilter fb (2 * ((gt >>> 2) &&& 1) + ((f >>> 2) &&& 1))) (p f)

/-- The mathematical content of the analysis pipeline. -/
def analSpec {R : Type} [CommRing R] {K : ℕ} (fb : FilterBank R K)
    (ch : ℕ → Vec R K) (gt : ℕ) : Vec R K :=
  ∑ f ∈ Finset.range 8,
    chainT (compFilter fb (2 * ((gt >>> 0) &&& 1) + ((f >>> 0) &&& 1)))
      (compFilter fb (2 * ((gt >>> 1) &&& 1) + ((f >>> 1) &&& 1)))
      (compFilter fb (2 * ((gt >>> 2) &&& 1) + ((f >>> 2) &&& 1))) (ch f)

theorem synth_char {R : Type} [CommRing R] {K : ℕ} (fb : FilterBank R K)
    (p s0 t0 cp : ℕ → Vec R K) (gt : ℕ) (h : gt < 8) :
    s_mwTransform fb p false s0 t0 cp gt = synthSpec fb p gt := by
  interval_cases gt <;>
    (simp only [synthSpec, sum_range8_expand]; exact pipeline_eight)

theorem anal_char {R : Type} [CommRing R] {K : ℕ} (fb : FilterBank R K)
    (ch p0 t0 : ℕ → Vec R K) (gt : ℕ) (h : gt < 8) :
    s_mwTransformBack fb ch p0 t0 gt = analSpec fb ch gt := by
  interval_cases gt <;>
    (simp only [analSpec, sum_range8_expand]; exact pipeline_eight)

/-- Orthonormality of the two-channel filter bank (the property of the
externally loaded filter matrices that the spec calls mutual adjointness):
for each pair of sub-filter channels, H0 A0ᵗ + H1 A1ᵗ style sums give the
identity on the diagonal and zero off it. -/
def Ortho {R : Type} [CommRing R] {K : ℕ} (fb : FilterBank R K) : Prop :=
  ∀ e g : ℕ, e < 2 → g < 2 →
    mm (reconFilter fb e) (compFilter fb (2 * g)) +
      mm (reconFilter fb (2 + e)) (compFilter fb (2 * g + 1)) =
    if e = g then idM else 0

theorem eight_term_group {R : Type} [CommRing R] {K : ℕ}
    (X0 X1 Y0 Y1 Z0 Z1 : Mat R K) (v : Vec R K) :
    chainT X0 Y0 Z0 v + chainT X1 Y0 Z0 v + chainT X0 Y1 Z0 v + chainT X1 Y1 Z0 v +
      chainT X0 Y0 Z1 v + chainT X1 Y0 Z1 v + chainT X0 Y1 Z1 v + chainT X1 Y1 Z1 v =
    chainT (X0 + X1) (Y0 + Y1) (Z0 + Z1) v := by
  simp only [chainT_add₁, chainT_add₂, chainT_add₃]
  abel

theorem inner_f_collapse {R : Type} [CommRing R] {K : ℕ} (fb : FilterBank R K)
    (hortho : Ortho fb) (d₀ d₁ d₂ g₀ g₁ g₂ : ℕ)
    (hd₀ : d₀ < 2) (hd₁ : d₁ < 2) (hd₂ : d₂ < 2)
    (hg₀ : g₀ < 2) (hg₁ : g₁ < 2) (hg₂ : g₂ < 2) (v : Vec R K) :
    (∑ f ∈ Finset.range 8,
      chainT (mm (reconFilter fb (2 * ((f >>> 0) &&& 1) + d₀))
          (compFilter fb (2 * g₀ + ((f >>> 0) &&& 1))))
        (mm (reconFilter fb (2 * ((f >>> 1) &&& 1) + d₁))
          (compFilter fb (2 * g₁ + ((f >>> 1) &&& 1))))
        (mm (reconFilter fb (2 * ((f >>> 2) &&& 1) + d₂))
          (compFilter fb (2 * g₂ + ((f >>> 2) &&& 1)))) v) =
    if d₀ = g₀ ∧ d₁ = g₁ ∧ d₂ = g₂ then v else 0 := by
  rw [sum_range8_expand]
  simp only [bitv00, bitv01, bitv02, bitv10, bitv11, bitv12, bitv20, bitv21, bitv22,
    bitv30, bitv31, bitv32, bitv40, bitv41, bitv42, bitv50, bitv51, bitv52,
    bitv60, bitv61, bitv62, bitv70, bitv71, bitv72]
  simp only [mul_zero, mul_one, zero_add, add_zero]
  rw [eight_term_group]
  rw [hortho d₀ g₀ hd₀ hg₀, hortho d₁ g₁ hd₁ hg₁, hortho d₂ g₂ hd₂ hg₂]
  split_ifs <;> simp_all [chainT_id, chainT_zero₁, chainT_zero₂, chainT_zero₃]

theorem and_one_lt_two (n : ℕ) : n &&& 1 < 2 := by
  have h : n &&& 1 = n % 2 := Nat.and_one_is_mod n
  omega

theorem final_sum_bits {R : Type} [CommRing R] {K : ℕ} (p : ℕ → Vec R K)
    (gt : ℕ) (h : gt < 8) :
    (∑ e ∈ Finset.range 8,
      if (e >>> 0) &&& 1 = (gt >>> 0) &&& 1 ∧ (e >>> 1) &&& 1 = (gt >>> 1) &&& 1 ∧
          (e >>> 2) &&& 1 = (gt >>> 2) &&& 1 then p e else 0) = p gt := by
  interval_cases gt <;>
    simp [sum_range8_expand, bitv00, bitv01, bitv02, bitv10, bitv11, bitv12,
      bitv20, bitv21, bitv22, bitv30, bitv31, bitv32, bitv40, bitv41, bitv42,
      bitv50, bitv51, bitv52, bitv60, bitv61, bitv62, bitv70, bitv71, bitv72]

theorem analSpec_synthSpec {R : Type} [CommRing R] {K : ℕ} (fb : FilterBank R K)
    (hortho : Ortho fb) (p : ℕ → Vec R K) (gt : ℕ) (h : gt < 8) :
    analSpec fb (synthSpec fb p) gt = p gt := by
  simp only [analSpec, synthSpec, chainT_sum, chainT_comp]
  rw [Finset.sum_comm]
  refine Eq.trans (Finset.sum_congr rfl fun e he => ?_) (final_sum_bits p gt h)
  exact inner_f_collapse fb hortho ((e >>> 0) &&& 1) ((e >>> 1) &&& 1) ((e >>> 2) &&& 1)
    ((gt >>> 0) &&& 1) ((gt >>> 1) &&& 1) ((gt >>> 2) &&& 1)
    (and_one_lt_two _) (and_one_lt_two _) (and_one_lt_two _)
    (and_one_lt_two _) (and_one_lt_two _) (and_one_lt_two _) (p e)

/-- C5: transform adjointness.  For orthonormal filter blocks, applying
Synthesis (S_mwTransform in full mode) to a parent coefficient block to
produce the 2^3 children scaling blocks and then applying Analysis
(S_mwTransformBack) to those children reproduces the original parent
coefficients exactly (the idealized-arithmetic counterpart of
to-floating-point-round-off), for every sub-block gt of the parent and
arbitrary previous contents of the scratch areas. -/
theorem C5_transform_adjoint {R : Type} [CommRing R] {K : ℕ} (fb : FilterBank R K)
    (hortho : Ortho fb) (parent s0 t0 cp p0 t1 : ℕ → Vec R K) (gt : ℕ) (h : gt < 8) :
    s_mwTransformBack fb (s_mwTransform fb parent false s0 t0 cp) p0 t1 gt = parent gt := by
  calc s_mwTransformBack fb (s_mwTransform fb parent false s0 t0 cp) p0 t1 gt
      = analSpec fb (s_mwTransform fb parent false s0 t0 cp) gt :=
        anal_char fb _ p0 t1 gt h
    _ = analSpec fb (synthSpec fb parent) gt := by
        simp only [analSpec]
        refine Finset.sum_congr rfl fun f hf => ?_
        rw [synth_char fb parent s0 t0 cp f (Finset.mem_range.1 hf)]
    _ = parent gt := analSpec_synthSpec fb hortho parent gt h

/-- A concrete orthonormal filter bank over the rationals with order 0
(K = 1): the rotation by the 3-4-5 angle. -/
def fbW : FilterBank ℚ 1 :=
  { H0 := fun _ _ => 3/5, H1 := fun _ _ => 4/5,
    G0 := fun _ _ => -4/5, G1 := fun _ _ => 3/5 }

/-- A concrete parent block over the rationals. -/
def pW : ℕ → Vec ℚ 1 := fun f => fun _ _ _ => (f : ℚ) + 1

/-- A concrete zeroed scratch family. -/
def zW : ℕ → Vec ℚ 1 := fun _ => fun _ _ _ => 0

/-- C5 witness: the adjointness theorem applied to the concrete 3-4-5
filter bank and parent block, at sub-block 0. -/
theorem C5_transform_adjoint_witness :
    Ortho fbW ∧ (0 : ℕ) < 8 ∧
      s_mwTransformBack fbW (s_mwTransform fbW pW false zW zW zW) zW zW 0 = pW 0 := by
  have hortho : Ortho fbW := by
    intro e g he hg
    interval_cases e <;> interval_cases g <;>
      · funext i j
        have hij : i = j := Subsingleton.elim i j
        simp [mm, reconFilter, compFilter, transp, fbW, idM, Fin.sum_univ_one, hij]
        norm_num
  exact ⟨hortho, by decide,
    C5_transform_adjoint fbW hortho pW zW zW zW zW zW 0 (by decide)⟩

/-! ### Bottom-up recompression pass (SerialTree::S_mwTreeTransformUp) -/

/-- analSpec only reads the eight children blocks, so it is congruent in
the input family on indices below 8. -/
theorem analSpec_congr {R : Type} [CommRing R] {K : ℕ} (fb : FilterBank R K)
    (ch₁ ch₂ : ℕ → Vec R K) (gt : ℕ) (h : ∀ f, f < 8 → ch₁ f = ch₂ f) :
    analSpec fb ch₁ gt = analSpec fb ch₂ gt := by
  simp only [analSpec]
  exact Finset.sum_congr rfl fun f hf => by rw [h f (Finset.mem_range.1 hf)]

/-- The readiness test of the child loop of S_mwTreeTransformUp: child i
counts as ready when it is already finished (status above zero) or is a
leaf (no children). -/
def readyC (T : ℕ → List ℕ) (st : List ℕ) (i : ℕ) : Bool :=
  decide (0 < st.getD i 0) || decide (T i = [])

/-- The mutable state of S_mwTreeTransformUp: the explicit node stack
(list head = stack[slen], the top), the per-rank status array (1 means
finished), the per-rank coefficient blocks (each a family of 2^D
sub-blocks, sub-block 0 the scaling part, overwritten in place by
S_mwTransformBack), and the trace of the S_mwTransformBack calls made so
far, in order. -/
structure UpState (R : Type) (K : ℕ) where
  stack : List ℕ
  status : List ℕ
  coefs : ℕ → ℕ → Vec R K
  log : List ℕ

/-- One iteration of the while (slen) loop of S_mwTreeTransformUp.  fpos
is the stack top, read without popping.  If fpos has children and is not
finished, every child that is neither finished nor a leaf is pushed (in
child order, so the last child ends on top) and the ready children are
counted; when all children are ready, fpos is recompressed in place from
its children scaling blocks and marked finished (it is popped on a later
visit).  Otherwise fpos is popped and marked finished. -/
def upStep {R : Type} [CommRing R] {K : ℕ} (fb : FilterBank R K)
    (T : ℕ → List ℕ) (tmp0 : ℕ → Vec R K) (s : UpState R K) : UpState R K :=
  match s.stack with
  | [] => s
  | fpos :: _rest =>
    if 0 < (T fpos).length ∧ s.status.getD fpos 0 = 0 then
      let childok := ((T fpos).filter fun i => readyC T s.status i).length
      let pushes := (T fpos).filter fun i =>
        (!readyC T s.status i) && decide (0 < (T i).length)
      let stack1 := pushes.reverse ++ s.stack
      if childok = (T fpos).length then
        { stack := stack1
          status := s.status.set fpos 1
          coefs := fun r =>
            if r = fpos then
              s_mwTransformBack fb (fun f => s.coefs ((T fpos).getD f 0) 0)
                (s.coefs fpos) tmp0
            else s.coefs r
          log := s.log ++ [fpos] }
      else
        { s with stack := stack1 }
    else
      { stack := s.stack.tail
        status := s.status.set fpos 1
        coefs := s.coefs
        log := s.log }

/-- The while loop of S_mwTreeTransformUp, with explicit fuel (the source
loop runs until the stack empties; surplus fuel is inert). -/
def runUp {R : Type} [CommRing R] {K : ℕ} (fb : FilterBank R K)
    (T : ℕ → List ℕ) (tmp0 : ℕ → Vec R K) : ℕ → UpState R K → UpState R K
  | 0, s => s
  | fuel + 1, s => if s.stack = [] then s else runUp fb T tmp0 fuel (upStep fb T tmp0 s)

/-- The initialisation of S_mwTreeTransformUp: statuses all zero, each
root pushed in root-box order (so the last root is on top) with its
status set to 1 exactly when it has no children. -/
def upInit {R : Type} {K : ℕ} (T : ℕ → List ℕ) (nN : ℕ) (rts : List ℕ)
    (c0 : ℕ → ℕ → Vec R K) : UpState R K :=
  { stack := rts.reverse
    status := rts.foldl (fun st r => st.set r (if T r = [] then 1 else 0))
      (List.replicate nN 0)
    coefs := c0
    log := [] }

/-- SerialTree::S_mwTreeTransformUp: initialise, then run the while loop. -/
def s_mwTreeTransformUp {R : Type} [CommRing R] {K : ℕ} (fb : FilterBank R K)
    (T : ℕ → List ℕ) (nN : ℕ) (rts : List ℕ) (tmp0 : ℕ → Vec R K)
    (c0 : ℕ → ℕ → Vec R K) (fuel : ℕ) : UpState R K :=
  runUp fb T tmp0 fuel (upInit T nN rts c0)

/-- The uniform depth-2 refinement shape for D = 3: root rank 0, its 2^3
children ranks 1..8, each child refined once more into 8 leaf
grandchildren, ranks 9..72. -/
def chl2 : ℕ → List ℕ := fun r =>
  if r = 0 then [1, 2, 3, 4, 5, 6, 7, 8]
  else if r ≤ 8 then (List.range 8).map fun i => 1 + 8 * r + i
  else []

/-- One run of the recompression pass on the depth-2 uniform tree (fuel 30
exceeds the 19 loop iterations the trace needs). -/
def upPass {R : Type} [CommRing R] {K : ℕ} (fb : FilterBank R K)
    (tmp0 : ℕ → Vec R K) (c0 : ℕ → ℕ → Vec R K) : UpState R K :=
  s_mwTreeTransformUp fb chl2 73 [0] tmp0 c0 30

/-- The control component of the pass state: stack, status array and
recompression trace, without the coefficient payload. -/
structure UpCtrl where
  stack : List ℕ
  status : List ℕ
  log : List ℕ

/-- The control projection of a pass state. -/
def ctrlOf {R : Type} {K : ℕ} (s : UpState R K) : UpCtrl :=
  { stack := s.stack
    status := s.status
    log := s.log }

@[simp] theorem ctrlOf_stack {R : Type} {K : ℕ} (s : UpState R K) :
    (ctrlOf s).stack = s.stack := rfl

@[simp] theorem ctrlOf_status {R : Type} {K : ℕ} (s : UpState R K) :
    (ctrlOf s).status = s.status := rfl

@[simp] theorem ctrlOf_log {R : Type} {K : ℕ} (s : UpState R K) :
    (ctrlOf s).log = s.log := rfl

/-- The control part of one loop iteration (upStep without coefficients). -/
def upStepC (T : ℕ → List ℕ) (c : UpCtrl) : UpCtrl :=
  match c.stack with
  | [] => c
  | fpos :: _rest =>
    if 0 < (T fpos).length ∧ c.status.getD fpos 0 = 0 then
      let childok := ((T fpos).filter fun i => readyC T c.status i).length
      let pushes := (T fpos).filter fun i =>
        (!readyC T c.status i) && decide (0 < (T i).length)
      let stack1 := pushes.reverse ++ c.stack
      if childok = (T fpos).length then
        { stack := stack1
          status := c.status.set fpos 1
          log := c.log ++ [fpos] }
      else
        { c with stack := stack1 }
    else
      { stack := c.stack.tail
        status := c.status.set fpos 1
        log := c.log }

/-- The recompression events (zero or one) of a single loop iteration. -/
def stepEvent (T : ℕ → List ℕ) (c : UpCtrl) : List ℕ :=
  match c.stack with
  | [] => []
  | fpos :: _rest =>
    if 0 < (T fpos).length ∧ c.status.getD fpos 0 = 0 then
      if ((T fpos).filter fun i => readyC T c.status i).length = (T fpos).length then [fpos]
      else []
    else []

/-- The control part of the while loop. -/
def runUpC (T : ℕ → List ℕ) : ℕ → UpCtrl → UpCtrl
  | 0, c => c
  | fuel + 1, c => if c.stack = [] then c else runUpC T fuel (upStepC T c)

/-- The ordered list of recompression events of a run of the while loop. -/
def eventsOf (T : ℕ → List ℕ) : ℕ → UpCtrl → List ℕ
  | 0, _ => []
  | fuel + 1, c =>
    if c.stack = [] then [] else stepEvent T c ++ eventsOf T fuel (upStepC T c)

/-- The control part of the initial state. -/
def upInitC (T : ℕ → List ℕ) (nN : ℕ) (rts : List ℕ) : UpCtrl :=
  { stack := rts.reverse
    status := rts.foldl (fun st r => st.set r (if T r = [] then 1 else 0))
      (List.replicate nN 0)
    log := [] }

/-- Replaying a list of recompression events over the coefficient store:
each event recompresses the named rank in place from the current scaling
blocks of its children, exactly as the compress branch of upStep does. -/
def replay {R : Type} [CommRing R] {K : ℕ} (fb : FilterBank R K)
    (T : ℕ → List ℕ) (tmp0 : ℕ → Vec R K) :
    List ℕ → (ℕ → ℕ → Vec R K) → (ℕ → ℕ → Vec R K)
  | [], c => c
  | e :: es, c =>
    replay fb T tmp0 es fun r =>
      if r = e then
        s_mwTransformBack fb (fun f => c ((T e).getD f 0) 0) (c e) tmp0
      else c r

theorem replay_append {R : Type} [CommRing R] {K : ℕ} (fb : FilterBank R K)
    (T : ℕ → List ℕ) (tmp0 : ℕ → Vec R K) (l₁ l₂ : List ℕ) (c : ℕ → ℕ → Vec R K) :
    replay fb T tmp0 (l₁ ++ l₂) c = replay fb T tmp0 l₂ (replay fb T tmp0 l₁ c) := by
  induction l₁ generalizing c with
  | nil => rfl
  | cons e es ih =>
    simp only [List.cons_append, replay]
    exact ih _

/-- Replaying events at a rank that none of the events touches leaves the
block unchanged. -/
theorem replay_notin {R : Type} [CommRing R] {K : ℕ} (fb : FilterBank R K)
    (T : ℕ → List ℕ) (tmp0 : ℕ → Vec R K) (l : List ℕ) (c : ℕ → ℕ → Vec R K)
    (r : ℕ) (h : r ∉ l) :
    replay fb T tmp0 l c r = c r := by
  induction l generalizing c with
  | nil => rfl
  | cons e es ih =>
    rw [show replay fb T tmp0 (e :: es) c = replay fb T tmp0 es fun r' =>
          if r' = e then
            s_mwTransformBack fb (fun f => c ((T e).getD f 0) 0) (c e) tmp0
          else c r' from rfl]
    rw [ih _ fun hm => h (List.mem_cons_of_mem _ hm)]
    have hne : r ≠ e := fun hre => h (hre ▸ List.mem_cons_self e es)
    simp [hne]

/-- Replaying a list of events split around one event e (with e not
recurring afterwards) leaves, at rank e, exactly the recompression of e
computed over the store produced by the events before e. -/
theorem replay_at {R : Type} [CommRing R] {K : ℕ} (fb : FilterBank R K)
    (T : ℕ → List ℕ) (tmp0 : ℕ → Vec R K) (l₁ l₂ : List ℕ) (e : ℕ) (h : e ∉ l₂)
    (c : ℕ → ℕ → Vec R K) :
    replay fb T tmp0 (l₁ ++ e :: l₂) c e =
      s_mwTransformBack fb (fun f => replay fb T tmp0 l₁ c ((T e).getD f 0) 0)
        (replay fb T tmp0 l₁ c e) tmp0 := by
  rw [replay_append]
  rw [show replay fb T tmp0 (e :: l₂) (replay fb T tmp0 l₁ c) =
        replay fb T tmp0 l₂ fun r' =>
          if r' = e then
            s_mwTransformBack fb
              (fun f => replay fb T tmp0 l₁ c ((T e).getD f 0) 0)
              (replay fb T tmp0 l₁ c e) tmp0
          else replay fb T tmp0 l₁ c r' from rfl]
  rw [replay_notin fb T tmp0 l₂ _ e h]
  simp

theorem upStep_ctrl {R : Type} [CommRing R] {K : ℕ} (fb : FilterBank R K)
    (T : ℕ → List ℕ) (tmp0 : ℕ → Vec R K) (s : UpState R K) :
    ctrlOf (upStep fb T tmp0 s) = upStepC T (ctrlOf s) := by
  obtain ⟨stack, status, coefs, log⟩ := s
  cases stack with
  | nil => rfl
  | cons fpos rest =>
    simp only [upStep, upStepC, ctrlOf]
    split_ifs <;> rfl

theorem upStep_coefs {R : Type} [CommRing R] {K : ℕ} (fb : FilterBank R K)
    (T : ℕ → List ℕ) (tmp0 : ℕ → Vec R K) (s : UpState R K) :
    (upStep fb T tmp0 s).coefs = replay fb T tmp0 (stepEvent T (ctrlOf s)) s.coefs := by
  obtain ⟨stack, status, coefs, log⟩ := s
  cases stack with
  | nil => rfl
  | cons fpos rest =>
    simp only [upStep, stepEvent, ctrlOf]
    split_ifs <;> rfl

theorem runUp_ctrl {R : Type} [CommRing R] {K : ℕ} (fb : FilterBank R K)
    (T : ℕ → List ℕ) (tmp0 : ℕ → Vec R K) (fuel : ℕ) (s : UpState R K) :
    ctrlOf (runUp fb T tmp0 fuel s) = runUpC T fuel (ctrlOf s) := by
  induction fuel generalizing s with
  | zero => rfl
  | succ n ih =>
    simp only [runUp, runUpC, ctrlOf_stack]
    by_cases h : s.stack = []
    · rw [if_pos h, if_pos h]
    · rw [if_neg h, if_neg h, ih, upStep_ctrl]

theorem runUp_coefs {R : Type} [CommRing R] {K : ℕ} (fb : FilterBank R K)
    (T : ℕ → List ℕ) (tmp0 : ℕ → Vec R K) (fuel : ℕ) (s : UpState R K) :
    (runUp fb T tmp0 fuel s).coefs =
      replay fb T tmp0 (eventsOf T fuel (ctrlOf s)) s.coefs := by
  induction fuel generalizing s with
  | zero => rfl
  | succ n ih =>
    simp only [runUp, eventsOf, ctrlOf_stack]
    by_cases h : s.stack = []
    · rw [if_pos h, if_pos h]
      rfl
    · rw [if_neg h, if_neg h, ih, upStep_ctrl, upStep_coefs, replay_append]

set_option maxHeartbeats 4000000 in
/-- C7: bottom-up recompression fixpoint.  On the uniform depth-2 tree
(root 0, children 1..8, leaf grandchildren 9..72) the pass terminates with
an empty stack; it recompresses exactly the nine internal nodes, each
once, children before the root, and only when each child of the visited
node is a leaf or already finished; leaf coefficients are untouched; every
internal node ends up holding exactly the Analysis of its 2^3 children's
final scaling blocks; and running the pass a second time immediately
afterwards leaves every coefficient block unchanged. -/
theorem C7_recompress_fixpoint {R : Type} [CommRing R] {K : ℕ} (fb : FilterBank R K)
    (tmp0 : ℕ → Vec R K) (c0 : ℕ → ℕ → Vec R K) :
    (ctrlOf (upPass fb tmp0 c0)).stack = [] ∧
    (ctrlOf (upPass fb tmp0 c0)).log = [8, 7, 6, 5, 4, 3, 2, 1, 0] ∧
    (ctrlOf (upPass fb tmp0 c0)).log.Nodup ∧
    (∀ k, k < (ctrlOf (upPass fb tmp0 c0)).log.length →
      ∀ ch ∈ chl2 ((ctrlOf (upPass fb tmp0 c0)).log.getD k 73),
        chl2 ch = [] ∨ ch ∈ (ctrlOf (upPass fb tmp0 c0)).log.take k) ∧
    (∀ r, 8 < r → r ≤ 72 → (upPass fb tmp0 c0).coefs r = c0 r) ∧
    (∀ r, r ≤ 8 → ∀ gt, gt < 8 →
      (upPass fb tmp0 c0).coefs r gt =
        analSpec fb (fun f => (upPass fb tmp0 c0).coefs ((chl2 r).getD f 0) 0) gt) ∧
    (∀ r, r ≤ 72 → ∀ gt, gt < 8 →
      (upPass fb tmp0 (upPass fb tmp0 c0).coefs).coefs r gt =
        (upPass fb tmp0 c0).coefs r gt) := by
  have hev : eventsOf chl2 30 (upInitC chl2 73 [0]) = [8, 7, 6, 5, 4, 3, 2, 1, 0] := by
    decide
  have hco : ∀ d0 : ℕ → ℕ → Vec R K, (upPass fb tmp0 d0).coefs =
      replay fb chl2 tmp0 [8, 7, 6, 5, 4, 3, 2, 1, 0] d0 := by
    intro d0
    have h1 : (upPass fb tmp0 d0).coefs =
        replay fb chl2 tmp0 (eventsOf chl2 30 (upInitC chl2 73 [0])) d0 :=
      runUp_coefs fb chl2 tmp0 30 (upInit chl2 73 [0] d0)
    rw [h1, hev]
  have hctrl : ctrlOf (upPass fb tmp0 c0) = runUpC chl2 30 (upInitC chl2 73 [0]) :=
    runUp_ctrl fb chl2 tmp0 30 (upInit chl2 73 [0] c0)
  have hst : (ctrlOf (upPass fb tmp0 c0)).stack = [] := by
    rw [hctrl]
    decide
  have hlog : (ctrlOf (upPass fb tmp0 c0)).log = [8, 7, 6, 5, 4, 3, 2, 1, 0] := by
    rw [hctrl]
    decide
  refine ⟨hst, hlog, ?_, ?_, ?_, ?_, ?_⟩
  · rw [hlog]
    decide
  · rw [hlog]
    decide
  · intro r h8 h72
    rw [hco c0]
    exact replay_notin fb chl2 tmp0 _ c0 r
      (by simp only [List.mem_cons, List.not_mem_nil, or_false]; omega)
  · intro r hr gt hgt
    rw [hco c0]
    interval_cases r <;>
      (refine (anal_char fb _ _ _ gt hgt).trans (analSpec_congr fb _ _ gt fun f hf => ?_);
       interval_cases f <;> rfl)
  · intro r hr gt hgt
    rw [hco ((upPass fb tmp0 c0).coefs), hco c0]
    by_cases h9 : 9 ≤ r
    · have hnot : r ∉ ([8, 7, 6, 5, 4, 3, 2, 1, 0] : List ℕ) := by
        simp only [List.mem_cons, List.not_mem_nil, or_false]
        omega
      rw [replay_notin fb chl2 tmp0 _ _ r hnot]
    · have h8 : r ≤ 8 := by omega
      by_cases h0 : r = 0
      · subst h0
        rw [show ([8, 7, 6, 5, 4, 3, 2, 1, 0] : List ℕ) = [8, 7, 6, 5, 4, 3, 2, 1] ++ 0 :: [] from by decide]
        rw [replay_at fb chl2 tmp0 [8, 7, 6, 5, 4, 3, 2, 1] [] 0 (by decide),
            replay_at fb chl2 tmp0 [8, 7, 6, 5, 4, 3, 2, 1] [] 0 (by decide)]
        refine ((anal_char fb _ _ _ gt hgt).trans ?_).trans (anal_char fb _ _ _ gt hgt).symm
        refine analSpec_congr fb _ _ gt fun f hf => ?_
        interval_cases f
        · rw [show ((chl2 0).getD 0 0 : ℕ) = 1 from by decide]
          rw [show ([8, 7, 6, 5, 4, 3, 2, 1] : List ℕ) = [8, 7, 6, 5, 4, 3, 2] ++ 1 :: [] from by decide]
          rw [replay_at fb chl2 tmp0 [8, 7, 6, 5, 4, 3, 2] [] 1 (by decide),
              replay_at fb chl2 tmp0 [8, 7, 6, 5, 4, 3, 2] [] 1 (by decide)]
          refine ((anal_char fb _ _ _ 0 (by decide)).trans ?_).trans
            (anal_char fb _ _ _ 0 (by decide)).symm
          refine analSpec_congr fb _ _ 0 fun g hg => ?_
          interval_cases g <;>
            rw [replay_notin fb chl2 tmp0 _ _ _ (by decide), replay_notin fb chl2 tmp0 _ _ _ (by decide),
                replay_notin fb chl2 tmp0 _ _ _ (by decide)]
        · rw [show ((chl2 0).getD 1 0 : ℕ) = 2 from by decide]
          rw [show ([8, 7, 6, 5, 4, 3, 2, 1] : List ℕ) = [8, 7, 6, 5, 4, 3] ++ 2 :: [1] from by decide]
          rw [replay_at fb chl2 tmp0 [8, 7, 6, 5, 4, 3] [1] 2 (by decide),
              replay_at fb chl2 tmp0 [8, 7, 6, 5, 4, 3] [1] 2 (by decide)]
          refine ((anal_char fb _ _ _ 0 (by decide)).trans ?_).trans
            (anal_char fb _ _ _ 0 (by decide)).symm
          refine analSpec_congr fb _ _ 0 fun g hg => ?_
          interval_cases g <;>
            rw [replay_notin fb chl2 tmp0 _ _ _ (by decide), replay_notin fb chl2 tmp0 _ _ _ (by decide),
                replay_notin fb chl2 tmp0 _ _ _ (by decide)]
        · rw [show ((chl2 0).getD 2 0 : ℕ) = 3 from by decide]
          rw [show ([8, 7, 6, 5, 4, 3, 2, 1] : List ℕ) = [8, 7, 6, 5, 4] ++ 3 :: [2, 1] from by decide]
          rw [replay_at fb chl2 tmp0 [8, 7, 6, 5, 4] [2, 1] 3 (by decide),
              replay_at fb chl2 tmp0 [8, 7, 6, 5, 4] [2, 1] 3 (by decide)]
          refine ((anal_char fb _ _ _ 0 (by decide)).trans ?_).trans
            (anal_char fb _ _ _ 0 (by decide)).symm
          refine analSpec_congr fb _ _ 0 fun g hg => ?_
          interval_cases g <;>
            rw [replay_notin fb chl2 tmp0 _ _ _ (by decide), replay_notin fb chl2 tmp0 _ _ _ (by decide),
                replay_notin fb chl2 tmp0 _ _ _ (by decide)]
        · rw [show ((chl2 0).getD 3 0 : ℕ) = 4 from by decide]
          rw [show ([8, 7, 6, 5, 4, 3, 2, 1] : List ℕ) = [8, 7, 6, 5] ++ 4 :: [3, 2, 1] from by decide]
          rw [replay_at fb chl2 tmp0 [8, 7, 6, 5] [3, 2, 1] 4 (by decide),
              replay_at fb chl2 tmp0 [8, 7, 6, 5] [3, 2, 1] 4 (by decide)]
          refine ((anal_char fb _ _ _ 0 (by decide)).trans ?_).trans
            (anal_char fb _ _ _ 0 (by decide)).symm
          refine analSpec_congr fb _ _ 0 fun g hg => ?_
          interval_cases g <;>
            rw [replay_notin fb chl2 tmp0 _ _ _ (by decide), replay_notin fb chl2 tmp0 _ _ _ (by decide),
                replay_notin fb chl2 tmp0 _ _ _ (by decide)]
        · rw [show ((chl2 0).getD 4 0 : ℕ) = 5 from by decide]
          rw [show ([8, 7, 6, 5, 4, 3, 2, 1] : List ℕ) = [8, 7, 6] ++ 5 :: [4, 3, 2, 1] from by decide]
          rw [replay_at fb chl2 tmp0 [8, 7, 6] [4, 3, 2, 1] 5 (by decide),
              replay_at fb chl2 tmp0 [8, 7, 6] [4, 3, 2, 1] 5 (by decide)]
          refine ((anal_char fb _ _ _ 0 (by decide)).trans ?_).trans
            (anal_char fb _ _ _ 0 (by decide)).symm
          refine analSpec_congr fb _ _ 0 fun g hg => ?_
          interval_cases g <;>
            rw [replay_notin fb chl2 tmp0 _ _ _ (by decide), replay_notin fb chl2 tmp0 _ _ _ (by decide),
                replay_notin fb chl2 tmp0 _ _ _ (by decide)]
        · rw [show ((chl2 0).getD 5 0 : ℕ) = 6 from by decide]
          rw [show ([8, 7, 6, 5, 4, 3, 2, 1] : List ℕ) = [8, 7] ++ 6 :: [5, 4, 3, 2, 1] from by decide]
          rw [replay_at fb chl2 tmp0 [8, 7] [5, 4, 3, 2, 1] 6 (by decide),
              replay_at fb chl2 tmp0 [8, 7] [5, 4, 3, 2, 1] 6 (by decide)]
          refine ((anal_char fb _ _ _ 0 (by decide)).trans ?_).trans
            (anal_char fb _ _ _ 0 (by decide)).symm
          refine analSpec_congr fb _ _ 0 fun g hg => ?_
          interval_cases g <;>
            rw [replay_notin fb chl2 tmp0 _ _ _ (by decide), replay_notin fb chl2 tmp0 _ _ _ (by decide),
                replay_notin fb chl2 tmp0 _ _ _ (by decide)]
        · rw [show ((chl2 0).getD 6 0 : ℕ) = 7 from by decide]
          rw [show ([8, 7, 6, 5, 4, 3, 2, 1] : List ℕ) = [8] ++ 7 :: [6, 5, 4, 3, 2, 1] from by decide]
          rw [replay_at fb chl2 tmp0 [8] [6, 5, 4, 3, 2, 1] 7 (by decide),
              replay_at fb chl2 tmp0 [8] [6, 5, 4, 3, 2, 1] 7 (by decide)]
          refine ((anal_char fb _ _ _ 0 (by decide)).trans ?_).trans
            (anal_char fb _ _ _ 0 (by decide)).symm
          refine analSpec_congr fb _ _ 0 fun g hg => ?_
          interval_cases g <;>
            rw [replay_notin fb chl2 tmp0 _ _ _ (by decide), replay_notin fb chl2 tmp0 _ _ _ (by decide),
                replay_notin fb chl2 tmp0 _ _ _ (by decide)]
        · rw [show ((chl2 0).getD 7 0 : ℕ) = 8 from by decide]
          rw [show ([8, 7, 6, 5, 4, 3, 2, 1] : List ℕ) = [] ++ 8 :: [7, 6, 5, 4, 3, 2, 1] from by decide]
          rw [replay_at fb chl2 tmp0 [] [7, 6, 5, 4, 3, 2, 1] 8 (by decide),
              replay_at fb chl2 tmp0 [] [7, 6, 5, 4, 3, 2, 1] 8 (by decide)]
          refine ((anal_char fb _ _ _ 0 (by decide)).trans ?_).trans
            (anal_char fb _ _ _ 0 (by decide)).symm
          refine analSpec_congr fb _ _ 0 fun g hg => ?_
          interval_cases g <;>
            rw [replay_notin fb chl2 tmp0 _ _ _ (by decide), replay_notin fb chl2 tmp0 _ _ _ (by decide),
                replay_notin fb chl2 tmp0 _ _ _ (by decide)]
      · have h1 : 1 ≤ r := by omega
        interval_cases r
        · rw [show ([8, 7, 6, 5, 4, 3, 2, 1, 0] : List ℕ) = [8, 7, 6, 5, 4, 3, 2] ++ 1 :: [0] from by decide]
          rw [replay_at fb chl2 tmp0 [8, 7, 6, 5, 4, 3, 2] [0] 1 (by decide),
              replay_at fb chl2 tmp0 [8, 7, 6, 5, 4, 3, 2] [0] 1 (by decide)]
          refine ((anal_char fb _ _ _ gt hgt).trans ?_).trans
            (anal_char fb _ _ _ gt hgt).symm
          refine analSpec_congr fb _ _ gt fun f hf => ?_
          interval_cases f <;>
            rw [replay_notin fb chl2 tmp0 _ _ _ (by decide), replay_notin fb chl2 tmp0 _ _ _ (by decide),
                replay_notin fb chl2 tmp0 _ _ _ (by decide)]
        · rw [show ([8, 7, 6, 5, 4, 3, 2, 1, 0] : List ℕ) = [8, 7, 6, 5, 4, 3] ++ 2 :: [1, 0] from by decide]
          rw [replay_at fb chl2 tmp0 [8, 7, 6, 5, 4, 3] [1, 0] 2 (by decide),
              replay_at fb chl2 tmp0 [8, 7, 6, 5, 4, 3] [1, 0] 2 (by decide)]
          refine ((anal_char fb _ _ _ gt hgt).trans ?_).trans
            (anal_char fb _ _ _ gt hgt).symm
          refine analSpec_congr fb _ _ gt fun f hf => ?_
          interval_cases f <;>
            rw [replay_notin fb chl2 tmp0 _ _ _ (by decide), replay_notin fb chl2 tmp0 _ _ _ (by decide),
                replay_notin fb chl2 tmp0 _ _ _ (by decide)]
        · rw [show ([8, 7, 6, 5, 4, 3, 2, 1, 0] : List ℕ) = [8, 7, 6, 5, 4] ++ 3 :: [2, 1, 0] from by decide]
          rw [replay_at fb chl2 tmp0 [8, 7, 6, 5, 4] [2, 1, 0] 3 (by decide),
              replay_at fb chl2 tmp0 [8, 7, 6, 5, 4] [2, 1, 0] 3 (by decide)]
          refine ((anal_char fb _ _ _ gt hgt).trans ?_).trans
            (anal_char fb _ _ _ gt hgt).symm
          refine analSpec_congr fb _ _ gt fun f hf => ?_
          interval_cases f <;>
            rw [replay_notin fb chl2 tmp0 _ _ _ (by decide), replay_notin fb chl2 tmp0 _ _ _ (by decide),
                replay_notin fb chl2 tmp0 _ _ _ (by decide)]
        · rw [show ([8, 7, 6, 5, 4, 3, 2, 1, 0] : List ℕ) = [8, 7, 6, 5] ++ 4 :: [3, 2, 1, 0] from by decide]
          rw [replay_at fb chl2 tmp0 [8, 7, 6, 5] [3, 2, 1, 0] 4 (by decide),
              replay_at fb chl2 tmp0 [8, 7, 6, 5] [3, 2, 1, 0] 4 (by decide)]
          refine ((anal_char fb _ _ _ gt hgt).trans ?_).trans
            (anal_char fb _ _ _ gt hgt).symm
          refine analSpec_congr fb _ _ gt fun f hf => ?_
          interval_cases f <;>
            rw [replay_notin fb chl2 tmp0 _ _ _ (by decide), replay_notin fb chl2 tmp0 _ _ _ (by decide),
                replay_notin fb chl2 tmp0 _ _ _ (by decide)]
        · rw [show ([8, 7, 6, 5, 4, 3, 2, 1, 0] : List ℕ) = [8, 7, 6] ++ 5 :: [4, 3, 2, 1, 0] from by decide]
          rw [replay_at fb chl2 tmp0 [8, 7, 6] [4, 3, 2, 1, 0] 5 (by decide),
              replay_at fb chl2 tmp0 [8, 7, 6] [4, 3, 2, 1, 0] 5 (by decide)]
          refine ((anal_char fb _ _ _ gt hgt).trans ?_).trans
            (anal_char fb _ _ _ gt hgt).symm
          refine analSpec_congr fb _ _ gt fun f hf => ?_
          interval_cases f <;>
            rw [replay_notin fb chl2 tmp0 _ _ _ (by decide), replay_notin fb chl2 tmp0 _ _ _ (by decide),
                replay_notin fb chl2 tmp0 _ _ _ (by decide)]
        · rw [show ([8, 7, 6, 5, 4, 3, 2, 1, 0] : List ℕ) = [8, 7] ++ 6 :: [5, 4, 3, 2, 1, 0] from by decide]
          rw [replay_at fb chl2 tmp0 [8, 7] [5, 4, 3, 2, 1, 0] 6 (by decide),
              replay_at fb chl2 tmp0 [8, 7] [5, 4, 3, 2, 1, 0] 6 (by decide)]
          refine ((anal_char fb _ _ _ gt hgt).trans ?_).trans
            (anal_char fb _ _ _ gt hgt).symm
          refine analSpec_congr fb _ _ gt fun f hf => ?_
          interval_cases f <;>
            rw [replay_notin fb chl2 tmp0 _ _ _ (by decide), replay_notin fb chl2 tmp0 _ _ _ (by decide),
                replay_notin fb chl2 tmp0 _ _ _ (by decide)]
        · rw [show ([8, 7, 6, 5, 4, 3, 2, 1, 0] : List ℕ) = [8] ++ 7 :: [6, 5, 4, 3, 2, 1, 0] from by decide]
          rw [replay_at fb chl2 tmp0 [8] [6, 5, 4, 3, 2, 1, 0] 7 (by decide),
              replay_at fb chl2 tmp0 [8] [6, 5, 4, 3, 2, 1, 0] 7 (by decide)]
          refine ((anal_char fb _ _ _ gt hgt).trans ?_).trans
            (anal_char fb _ _ _ gt hgt).symm
          refine analSpec_congr fb _ _ gt fun f hf => ?_
          interval_cases f <;>
            rw [replay_notin fb chl2 tmp0 _ _ _ (by decide), replay_notin fb chl2 tmp0 _ _ _ (by decide),
                replay_notin fb chl2 tmp0 _ _ _ (by decide)]
        · rw [show ([8, 7, 6, 5, 4, 3, 2, 1, 0] : List ℕ) = [] ++ 8 :: [7, 6, 5, 4, 3, 2, 1, 0] from by decide]
          rw [replay_at fb chl2 tmp0 [] [7, 6, 5, 4, 3, 2, 1, 0] 8 (by decide),
              replay_at fb chl2 tmp0 [] [7, 6, 5, 4, 3, 2, 1, 0] 8 (by decide)]
          refine ((anal_char fb _ _ _ gt hgt).trans ?_).trans
            (anal_char fb _ _ _ gt hgt).symm
          refine analSpec_congr fb _ _ gt fun f hf => ?_
          interval_cases f <;>
            rw [replay_notin fb chl2 tmp0 _ _ _ (by decide), replay_notin fb chl2 tmp0 _ _ _ (by decide),
                replay_notin fb chl2 tmp0 _ _ _ (by decide)]

/-- A concrete coefficient store over the rationals for the depth-2 tree. -/
def cW : ℕ → ℕ → Vec ℚ 1 := fun r g => fun _ _ _ => (r : ℚ) + g

/-- A concrete scratch family over the rationals. -/
def tW : ℕ → Vec ℚ 1 := fun _ => fun _ _ _ => 7

/-- C7 witness: the fixpoint theorem applied to the 3-4-5 filter bank and
a concrete coefficient store, extracting the Analysis characterisation of
internal node 5 at sub-block 0. -/
theorem C7_recompress_fixpoint_witness :
    (5 : ℕ) ≤ 8 ∧ (0 : ℕ) < 8 ∧
      (upPass fbW tW cW).coefs 5 0 =
        analSpec fbW (fun f => (upPass fbW tW cW).coefs ((chl2 5).getD f 0) 0) 0 :=
  ⟨by decide, by decide,
    (C7_recompress_fixpoint fbW tW cW).2.2.2.2.2.1 5 (by decide) 0 (by decide)⟩

/-! ### Arena relocation (SerialTree::RewritePointers)

Addresses are modelled in units of doubles.  The arena layout follows the
constructor: a tree-metadata header of hdr doubles at base, maxNodes node
records of stride doubles each, then the coefficient region
(firstNodeCoeff) at base + hdr + maxNodes*stride, with coefficient blocks
of cstride doubles.  Node records are held by rank; deref recovers the
rank from an absolute address. -/

/-- One node record: child count, stored child addresses, stored parent
address, stored coefficient pointer and stored coefficient index. -/
@[ext] structure NRec where
  nChildren : ℕ
  children : List ℤ
  parent : ℤ
  coefPtr : ℤ
  coefIx : ℕ

/-- The serial-tree arena: layout constants, node records by rank, the
coefficient payload by coefficient index, and the root address table. -/
structure SArena (V : Type) where
  base : ℤ
  hdr : ℕ
  stride : ℕ
  maxNodes : ℕ
  cstride : ℕ
  recs : ℕ → NRec
  coeffData : ℕ → V
  roots : List ℤ

/-- Address of the node record of rank r. -/
def nodeAddr {V : Type} (A : SArena V) (r : ℕ) : ℤ := A.base + A.hdr + r * A.stride

/-- Start of the coefficient region (firstNodeCoeff). -/
def coeffStart {V : Type} (A : SArena V) : ℤ := A.base + A.hdr + A.maxNodes * A.stride

/-- Recover the rank from an absolute node address. -/
def deref {V : Type} (A : SArena V) (a : ℤ) : Option ℕ :=
  if 0 < A.stride ∧ 0 ≤ a - (A.base + ↑A.hdr) ∧ (A.stride : ℤ) ∣ a - (A.base + ↑A.hdr) ∧
      (a - (A.base + ↑A.hdr)) / A.stride < A.maxNodes then
    some ((a - (A.base + ↑A.hdr)) / A.stride).toNat
  else none

theorem deref_nodeAddr {V : Type} (A : SArena V) (r : ℕ) (hr : r < A.maxNodes)
    (hs : 0 < A.stride) : deref A (nodeAddr A r) = some r := by
  have hd : nodeAddr A r - (A.base + ↑A.hdr) = (r : ℤ) * A.stride := by
    simp only [nodeAddr]
    ring
  have hsz : (0 : ℤ) < (A.stride : ℤ) := by exact_mod_cast hs
  have hdiv : ((r : ℤ) * A.stride) / A.stride = r := Int.mul_ediv_cancel _ (ne_of_gt hsz)
  rw [deref, hd]
  have h1 : (0 : ℤ) ≤ (r : ℤ) * A.stride := by positivity
  have h2 : (A.stride : ℤ) ∣ (r : ℤ) * A.stride := dvd_mul_left _ _
  have h3 : ((r : ℤ) * A.stride) / A.stride < A.maxNodes := by
    rw [hdiv]
    exact_mod_cast hr
  rw [if_pos ⟨hs, h1, h2, h3⟩, hdiv]
  simp

/-- The per-node update of the relocation loop: shift the first nChildren
stored child addresses and the parent address by the computed offset, and
set the coefficient pointer to the coefficient-region start plus the
stored coefficient index times the block stride. -/
def updRec (shift cstart : ℤ) (cstride : ℕ) (rc : NRec) : NRec :=
  { nChildren := rc.nChildren
    children := (rc.children.take rc.nChildren).map (· + shift) ++
      rc.children.drop rc.nChildren
    parent := rc.parent + shift
    coefPtr := cstart + rc.coefIx * cstride
    coefIx := rc.coefIx }

/-- The while (slen) loop of RewritePointers: pop the top node address,
count it, shift and push its children (in child order, so the last child
is popped first), shift its parent and rebase its coefficient pointer.
Fuel-indexed; an unresolvable address is a failure. -/
def rpLoop {V : Type} (A : SArena V) (shift : ℤ) :
    ℕ → (ℕ → NRec) → List ℤ → ℕ → List ℕ → Option ((ℕ → NRec) × ℕ × List ℕ)
  | _, recs, [], count, order => some (recs, count, order)
  | 0, _, _ :: _, _, _ => none
  | fuel + 1, recs, a :: rest, count, order =>
    (deref A a).bind fun r =>
      rpLoop A shift fuel
        (fun q => if q = r then updRec shift (coeffStart A) A.cstride (recs r) else recs q)
        ((((recs r).children.take (recs r).nChildren).map (· + shift)).reverse ++ rest)
        (count + 1) (order ++ [r])

/-- SerialTree::RewritePointers: compute the single signed offset as the
coefficient-region start minus the root node record's stored coefficient
pointer, reset the node count, push the roots in root-box order and run
the rewrite loop. -/
def RewritePointers {V : Type} (A : SArena V) (fuel : ℕ) :
    Option (SArena V × ℕ × List ℕ) :=
  match A.roots with
  | [] => none
  | a0 :: _ =>
    (deref A a0).bind fun r0 =>
      (rpLoop A (coeffStart A - (A.recs r0).coefPtr) fuel A.recs A.roots.reverse 0 []).map
        fun out => ({ A with recs := out.1 }, out.2)

/-- Modelled from the spec: the byte-for-byte copy of the arena to a new
base address (SendRcv is not under src).  The node records and the
coefficient payload are byte-identical; the receiver's root table holds
the relocated root addresses. -/
def copyArena {V : Type} (A : SArena V) (δ : ℤ) : SArena V :=
  { A with base := A.base + δ
           roots := A.roots.map (· + δ) }

theorem nodeAddr_copy {V : Type} (A : SArena V) (δ : ℤ) (r : ℕ) :
    nodeAddr (copyArena A δ) r = nodeAddr A r + δ := by
  simp only [nodeAddr, copyArena]
  ring

theorem coeffStart_copy {V : Type} (A : SArena V) (δ : ℤ) :
    coeffStart (copyArena A δ) = coeffStart A + δ := by
  simp only [coeffStart, copyArena]
  ring

/-- Abstract forests of node ranks. -/
inductive FT where
  | node (r : ℕ) (ch : List FT)

def FT.rank : FT → ℕ
  | .node r _ => r

mutual

def sizeF : FT → ℕ
  | .node _ ch => 1 + sizeL ch

def sizeL : List FT → ℕ
  | [] => 0
  | t :: ts => sizeF t + sizeL ts

end

mutual

def ranksF : FT → List ℕ
  | .node r ch => r :: ranksL ch

def ranksL : List FT → List ℕ
  | [] => []
  | t :: ts => ranksF t ++ ranksL ts

end

theorem sizeL_append (xs ys : List FT) : sizeL (xs ++ ys) = sizeL xs + sizeL ys := by
  induction xs with
  | nil => simp [sizeL]
  | cons t ts ih =>
    rw [List.cons_append]
    rw [show sizeL (t :: (ts ++ ys)) = sizeF t + sizeL (ts ++ ys) from rfl]
    rw [show sizeL (t :: ts) = sizeF t + sizeL ts from rfl]
    rw [ih]
    omega

theorem sizeL_reverse (xs : List FT) : sizeL xs.reverse = sizeL xs := by
  induction xs with
  | nil => rfl
  | cons t ts ih =>
    simp only [List.reverse_cons, sizeL_append, sizeL, ih]
    omega

theorem ranksL_append (xs ys : List FT) :
    ranksL (xs ++ ys) = ranksL xs ++ ranksL ys := by
  induction xs with
  | nil => simp [ranksL]
  | cons t ts ih => simp [ranksL, ih]

theorem ranksL_reverse_perm (xs : List FT) : (ranksL xs.reverse).Perm (ranksL xs) := by
  induction xs with
  | nil => exact List.Perm.refl _
  | cons t ts ih =>
    rw [List.reverse_cons, ranksL_append]
    have h1 : ranksL [t] = ranksF t := by simp [ranksL]
    rw [h1]
    show (ranksL ts.reverse ++ ranksF t).Perm (ranksL (t :: ts))
    have h2 : ranksL (t :: ts) = ranksF t ++ ranksL ts := rfl
    rw [h2]
    exact (ih.append_right (ranksF t)).trans List.perm_append_comm

theorem mem_ranksL_reverse (q : ℕ) (xs : List FT) :
    q ∈ ranksL xs.reverse ↔ q ∈ ranksL xs :=
  (ranksL_reverse_perm xs).mem_iff

/-- Depth-first traversal order of the relocation stack: pop a node, then
its children with the last child first. -/
def travL : List FT → List ℕ
  | [] => []
  | .node r ch :: ts => r :: travL (ch.reverse ++ ts)
termination_by l => sizeL l
decreasing_by
  simp only [sizeL_append, sizeL_reverse, sizeL, sizeF]
  omega

/-- A forest is represented in arena B with stored child addresses offset
by shift: node r's record holds ch.length as child count and, for each
child, the address of the child's record minus shift. -/
inductive ReprSh {V : Type} (B : SArena V) (shift : ℤ) : FT → Prop where
  | node (r : ℕ) (ch : List FT)
      (h1 : r < B.maxNodes)
      (h2 : (B.recs r).nChildren = ch.length)
      (h3 : (B.recs r).children = ch.map fun c => nodeAddr B c.rank - shift)
      (h4 : ∀ t ∈ ch, ReprSh B shift t) : ReprSh B shift (FT.node r ch)

theorem ReprSh.elim_node {V : Type} {B : SArena V} {shift : ℤ} {r : ℕ} {ch : List FT}
    (h : ReprSh B shift (FT.node r ch)) :
    r < B.maxNodes ∧ (B.recs r).nChildren = ch.length ∧
      (B.recs r).children = (ch.map fun c => nodeAddr B c.rank - shift) ∧
      ∀ t ∈ ch, ReprSh B shift t := by
  cases h with
  | node _ _ h1 h2 h3 h4 => exact ⟨h1, h2, h3, h4⟩

theorem ReprSh_copy {V : Type} (A : SArena V) (δ : ℤ) (t : FT) (h : ReprSh A 0 t) :
    ReprSh (copyArena A δ) δ t := by
  induction h with
  | node r ch h1 h2 h3 h4 ih =>
    refine ReprSh.node r ch h1 h2 ?_ ih
    show (A.recs r).children = ch.map fun c => nodeAddr (copyArena A δ) c.rank - δ
    rw [h3]
    simp [nodeAddr_copy]

theorem rpLoop_nil {V : Type} (A : SArena V) (shift : ℤ) (fuel : ℕ) (recs : ℕ → NRec)
    (count : ℕ) (order : List ℕ) :
    rpLoop A shift fuel recs [] count order = some (recs, count, order) := by
  cases fuel <;> rfl

theorem rpLoop_cons {V : Type} (A : SArena V) (shift : ℤ) (fuel : ℕ) (recs : ℕ → NRec)
    (a : ℤ) (rest : List ℤ) (count : ℕ) (order : List ℕ) (r : ℕ)
    (hd : deref A a = some r) :
    rpLoop A shift (fuel + 1) recs (a :: rest) count order =
      rpLoop A shift fuel
        (fun q => if q = r then updRec shift (coeffStart A) A.cstride (recs r) else recs q)
        ((((recs r).children.take (recs r).nChildren).map (· + shift)).reverse ++ rest)
        (count + 1) (order ++ [r]) := by
  simp only [rpLoop]
  rw [hd]
  rfl

/-- Simulation of the rewrite loop over a represented forest: starting
from a stack holding the addresses of the forest's roots on top of any
remainder, the loop processes exactly the nodes of the forest in
depth-first stack order, applying updRec once to each visited record, and
then continues on the remainder with the count advanced by the forest
size and the trace extended by the traversal order. -/
theorem rpLoop_sim {V : Type} (B : SArena V) (shift : ℤ) (hs : 0 < B.stride) :
    ∀ (n : ℕ) (ts : List FT), sizeL ts = n →
      ∀ (rest : List ℤ) (recs₀ : ℕ → NRec) (count : ℕ) (order : List ℕ) (fuel : ℕ),
      (∀ t ∈ ts, ReprSh B shift t) →
      (ranksL ts).Nodup →
      (∀ q ∈ ranksL ts, recs₀ q = B.recs q) →
      rpLoop B shift (fuel + sizeL ts) recs₀
          ((ts.map fun t => nodeAddr B t.rank) ++ rest) count order =
        rpLoop B shift fuel
          (fun q => if q ∈ ranksL ts then
              updRec shift (coeffStart B) B.cstride (B.recs q) else recs₀ q)
          rest (count + sizeL ts) (order ++ travL ts) := by
  intro n
  induction n using Nat.strong_induction_on with
  | _ n ih =>
    intro ts hsz rest recs₀ count order fuel hrep hnd hag
    cases ts with
    | nil =>
      simp [sizeL, travL, ranksL]
    | cons t ts' =>
      obtain ⟨r, ch⟩ := t
      obtain ⟨h1, h2, h3, h4⟩ := (hrep _ (List.mem_cons_self _ _)).elim_node
      have hnd' : (r :: (ranksL ch ++ ranksL ts')).Nodup := by
        have he : ranksL (FT.node r ch :: ts') = r :: (ranksL ch ++ ranksL ts') := by
          rw [show ranksL (FT.node r ch :: ts') = ranksF (FT.node r ch) ++ ranksL ts' from rfl,
            show ranksF (FT.node r ch) = r :: ranksL ch from rfl, List.cons_append]
        exact he ▸ hnd
      have hrnotin : r ∉ ranksL ch ++ ranksL ts' := (List.nodup_cons.mp hnd').1
      have hndtail : (ranksL ch ++ ranksL ts').Nodup := (List.nodup_cons.mp hnd').2
      have hrnotin2 : r ∉ ranksL (ch.reverse ++ ts') := by
        rw [ranksL_append]
        intro hmem
        rcases List.mem_append.mp hmem with hm | hm
        · exact hrnotin (List.mem_append.mpr (Or.inl ((mem_ranksL_reverse r ch).mp hm)))
        · exact hrnotin (List.mem_append.mpr (Or.inr hm))
      have hrc : recs₀ r = B.recs r := hag r (by
        rw [show ranksL (FT.node r ch :: ts') = ranksF (FT.node r ch) ++ ranksL ts' from rfl]
        exact List.mem_append.mpr (Or.inl (by
          rw [show ranksF (FT.node r ch) = r :: ranksL ch from rfl]
          exact List.mem_cons_self _ _)))
      simp only [List.map_cons, List.cons_append]
      rw [show FT.rank (FT.node r ch) = r from rfl]
      rw [show fuel + sizeL (FT.node r ch :: ts') = (fuel + (sizeL ch + sizeL ts')) + 1 from by
        rw [show sizeL (FT.node r ch :: ts') = sizeF (FT.node r ch) + sizeL ts' from rfl,
          show sizeF (FT.node r ch) = 1 + sizeL ch from rfl]
        omega]
      rw [rpLoop_cons B shift _ _ _ _ _ _ r (deref_nodeAddr B r h1 hs)]
      have hcs : (((recs₀ r).children.take (recs₀ r).nChildren).map (· + shift)) =
          ch.map fun c => nodeAddr B c.rank := by
        rw [hrc, h3, h2]
        rw [show ch.length = (ch.map fun c => nodeAddr B c.rank - shift).length from
              (List.length_map _ _).symm]
        rw [List.take_length, List.map_map]
        simp [Function.comp, sub_add_cancel]
      rw [hcs, hrc]
      rw [← List.map_reverse, ← List.append_assoc, ← List.map_append]
      rw [show fuel + (sizeL ch + sizeL ts') = fuel + sizeL (ch.reverse ++ ts') from by
        rw [sizeL_append, sizeL_reverse]]
      rw [ih (sizeL (ch.reverse ++ ts'))
        (by
          rw [← hsz, sizeL_append, sizeL_reverse,
            show sizeL (FT.node r ch :: ts') = sizeF (FT.node r ch) + sizeL ts' from rfl,
            show sizeF (FT.node r ch) = 1 + sizeL ch from rfl]
          omega)
        (ch.reverse ++ ts') rfl rest
        (fun q => if q = r then updRec shift (coeffStart B) B.cstride (B.recs r) else recs₀ q)
        (count + 1) (order ++ [r]) fuel
        (by
          intro t ht
          rcases List.mem_append.mp ht with hm | hm
          · exact h4 _ (List.mem_reverse.mp hm)
          · exact hrep _ (List.mem_cons_of_mem _ hm))
        (by
          rw [ranksL_append]
          exact (List.Perm.nodup_iff
            ((ranksL_reverse_perm ch).append_right (ranksL ts'))).mpr hndtail)
        (by
          intro q hq
          have hqr : q ≠ r := fun hqr => hrnotin2 (hqr ▸ hq)
          show (if q = r then updRec shift (coeffStart B) B.cstride (B.recs r)
            else recs₀ q) = B.recs q
          rw [if_neg hqr]
          apply hag
          rw [show ranksL (FT.node r ch :: ts') = ranksF (FT.node r ch) ++ ranksL ts' from rfl,
            show ranksF (FT.node r ch) = r :: ranksL ch from rfl, List.cons_append]
          rw [ranksL_append] at hq
          rcases List.mem_append.mp hq with hm | hm
          · exact List.mem_cons_of_mem _ (List.mem_append.mpr
              (Or.inl ((mem_ranksL_reverse q ch).mp hm)))
          · exact List.mem_cons_of_mem _ (List.mem_append.mpr (Or.inr hm)))]
      have hcnt : (count + 1) + sizeL (ch.reverse ++ ts') =
          count + sizeL (FT.node r ch :: ts') := by
        rw [sizeL_append, sizeL_reverse,
          show sizeL (FT.node r ch :: ts') = sizeF (FT.node r ch) + sizeL ts' from rfl,
          show sizeF (FT.node r ch) = 1 + sizeL ch from rfl]
        omega
      have hord : (order ++ [r]) ++ travL (ch.reverse ++ ts') =
          order ++ travL (FT.node r ch :: ts') := by
        conv_rhs => rw [travL]
        rw [List.append_assoc]
        rfl
      have hfun : (fun q => if q ∈ ranksL (ch.reverse ++ ts') then
            updRec shift (coeffStart B) B.cstride (B.recs q)
          else if q = r then updRec shift (coeffStart B) B.cstride (B.recs r) else recs₀ q) =
          (fun q => if q ∈ ranksL (FT.node r ch :: ts') then
            updRec shift (coeffStart B) B.cstride (B.recs q) else recs₀ q) := by
        funext q
        have hmem2 : (q ∈ ranksL (ch.reverse ++ ts')) ↔
            (q ∈ ranksL ch ∨ q ∈ ranksL ts') := by
          rw [ranksL_append, List.mem_append, mem_ranksL_reverse]
        have hmem1 : (q ∈ ranksL (FT.node r ch :: ts')) ↔
            (q = r ∨ q ∈ ranksL ch ∨ q ∈ ranksL ts') := by
          rw [show ranksL (FT.node r ch :: ts') = ranksF (FT.node r ch) ++ ranksL ts' from rfl,
            show ranksF (FT.node r ch) = r :: ranksL ch from rfl, List.cons_append,
            List.mem_cons, List.mem_append]
        by_cases hqr : q = r
        · subst hqr
          have hq2 : ¬(q ∈ ranksL ch ∨ q ∈ ranksL ts') := fun hcon =>
            hrnotin (List.mem_append.mpr hcon)
          rw [if_neg (fun hc => hq2 (hmem2.mp hc)), if_pos rfl,
            if_pos (hmem1.mpr (Or.inl rfl))]
        · by_cases hq2 : q ∈ ranksL ch ∨ q ∈ ranksL ts'
          · rw [if_pos (hmem2.mpr hq2), if_pos (hmem1.mpr (Or.inr hq2))]
          · rw [if_neg (fun hc => hq2 (hmem2.mp hc)), if_neg hqr,
              if_neg (fun hc => (hmem1.mp hc).elim (fun h => hqr h) (fun h => hq2 h))]
      rw [hcnt, hord, hfun]

/-- The record table after relocation: every rank in rks gets updRec
applied to its record, all others are untouched. -/
def relocRecs (shift cstart : ℤ) (cstride : ℕ) (rks : List ℕ)
    (recs : ℕ → NRec) : ℕ → NRec :=
  fun q => if q ∈ rks then updRec shift cstart cstride (recs q) else recs q

/-- The arena after relocation of the records of the given ranks. -/
def relocArena {V : Type} (B : SArena V) (shift : ℤ) (rks : List ℕ) : SArena V :=
  { B with recs := relocRecs shift (coeffStart B) B.cstride rks B.recs }

/-- Full characterisation of RewritePointers over a represented forest:
it terminates with fuel equal to the node count, visits each node once in
depth-first stack order (last root first), applies updRec to exactly the
forest's records, and reports the node count. -/
theorem RewritePointers_char {V : Type} (B : SArena V) (r₀ : ℕ) (ch₀ ts₀ : List FT)
    (shift : ℤ) (hs : 0 < B.stride)
    (hrepr : ∀ t ∈ FT.node r₀ ch₀ :: ts₀, ReprSh B shift t)
    (hnd : (ranksL (FT.node r₀ ch₀ :: ts₀)).Nodup)
    (hroots : B.roots = nodeAddr B r₀ :: (ts₀.map fun t => nodeAddr B t.rank))
    (hshift : coeffStart B - (B.recs r₀).coefPtr = shift) :
    RewritePointers B (sizeL (FT.node r₀ ch₀ :: ts₀)) =
      some (relocArena B shift (ranksL (FT.node r₀ ch₀ :: ts₀)),
             sizeL (FT.node r₀ ch₀ :: ts₀), travL ((FT.node r₀ ch₀ :: ts₀).reverse)) := by
  have h1 : r₀ < B.maxNodes := ((hrepr _ (List.mem_cons_self _ _)).elim_node).1
  simp only [RewritePointers, hroots]
  rw [deref_nodeAddr B r₀ h1 hs]
  rw [show ∀ f : ℕ → Option (SArena V × ℕ × List ℕ), (some r₀).bind f = f r₀ from
    fun _ => rfl]
  rw [hshift]
  rw [List.reverse_cons]
  rw [show ([nodeAddr B r₀] : List ℤ) =
        List.map (fun t => nodeAddr B t.rank) [FT.node r₀ ch₀] from rfl]
  rw [← List.map_reverse, ← List.map_append, ← List.reverse_cons]
  have hrun : rpLoop B shift (sizeL (FT.node r₀ ch₀ :: ts₀)) B.recs
      (List.map (fun t => nodeAddr B t.rank) (FT.node r₀ ch₀ :: ts₀).reverse) 0 [] =
      some (fun q => if q ∈ ranksL (FT.node r₀ ch₀ :: ts₀) then
          updRec shift (coeffStart B) B.cstride (B.recs q) else B.recs q,
        sizeL (FT.node r₀ ch₀ :: ts₀), travL ((FT.node r₀ ch₀ :: ts₀).reverse)) := by
    have h0 : rpLoop B shift (sizeL (FT.node r₀ ch₀ :: ts₀)) B.recs
        (List.map (fun t => nodeAddr B t.rank) (FT.node r₀ ch₀ :: ts₀).reverse) 0 [] =
        rpLoop B shift (0 + sizeL (FT.node r₀ ch₀ :: ts₀).reverse) B.recs
          (List.map (fun t => nodeAddr B t.rank) (FT.node r₀ ch₀ :: ts₀).reverse ++ [])
          0 [] := by
      rw [List.append_nil, sizeL_reverse, Nat.zero_add]
    rw [h0]
    rw [rpLoop_sim B shift hs (sizeL (FT.node r₀ ch₀ :: ts₀).reverse)
      ((FT.node r₀ ch₀ :: ts₀).reverse) rfl [] B.recs 0 [] 0
      (fun t ht => hrepr t (List.mem_reverse.mp ht))
      ((List.Perm.nodup_iff (ranksL_reverse_perm _)).mpr hnd)
      (fun _ _ => rfl)]
    rw [rpLoop_nil, Nat.zero_add, sizeL_reverse, List.nil_append]
    have hF : (fun q => if q ∈ ranksL (FT.node r₀ ch₀ :: ts₀).reverse then
          updRec shift (coeffStart B) B.cstride (B.recs q) else B.recs q) =
        (fun q => if q ∈ ranksL (FT.node r₀ ch₀ :: ts₀) then
          updRec shift (coeffStart B) B.cstride (B.recs q) else B.recs q) := by
      funext q
      by_cases hq : q ∈ ranksL (FT.node r₀ ch₀ :: ts₀)
      · rw [if_pos ((mem_ranksL_reverse q _).mpr hq), if_pos hq]
      · rw [if_neg (fun hc => hq ((mem_ranksL_reverse q _).mp hc)), if_neg hq]
    rw [hF]
  rw [hrun, ← hroots]
  rfl

/-- C2: relocation round-trip.  Copying the arena byte-for-byte to a
different base (offset δ doubles) and running RewritePointers succeeds
with fuel equal to the node count and yields: the same depth-first
parent/child traversal order and node count as running the protocol on
the original arena; every visited record rewritten by updRec with the
single offset δ computed from the root record's stored coefficient
pointer against the coefficient-region start, which shifts the stored
child and parent addresses by exactly δ (so the rank structure, hence
the leaf set, is preserved) and rebases the coefficient pointer to the
fresh region start plus the stored coefficient index, leaving child
counts, coefficient indices and the coefficient payload untouched; on the
original arena the rewrite is the identity on every record. -/
theorem C2_relocation_roundtrip {V : Type} (A : SArena V) (r₀ : ℕ) (ch₀ ts₀ : List FT)
    (δ : ℤ) (hs : 0 < A.stride)
    (hrepr : ∀ t ∈ FT.node r₀ ch₀ :: ts₀, ReprSh A 0 t)
    (hnd : (ranksL (FT.node r₀ ch₀ :: ts₀)).Nodup)
    (hroots : A.roots = nodeAddr A r₀ :: (ts₀.map fun t => nodeAddr A t.rank))
    (hclen : ∀ q ∈ ranksL (FT.node r₀ ch₀ :: ts₀),
      (A.recs q).children.length = (A.recs q).nChildren)
    (hcoef : ∀ q ∈ ranksL (FT.node r₀ ch₀ :: ts₀),
      (A.recs q).coefPtr = coeffStart A + (A.recs q).coefIx * A.cstride)
    (hroot0 : (A.recs r₀).coefIx = 0) :
    RewritePointers (copyArena A δ) (sizeL (FT.node r₀ ch₀ :: ts₀)) =
      some (relocArena (copyArena A δ) δ (ranksL (FT.node r₀ ch₀ :: ts₀)),
             sizeL (FT.node r₀ ch₀ :: ts₀), travL ((FT.node r₀ ch₀ :: ts₀).reverse)) ∧
    RewritePointers A (sizeL (FT.node r₀ ch₀ :: ts₀)) =
      some (relocArena A 0 (ranksL (FT.node r₀ ch₀ :: ts₀)),
             sizeL (FT.node r₀ ch₀ :: ts₀), travL ((FT.node r₀ ch₀ :: ts₀).reverse)) ∧
    (∀ q ∈ ranksL (FT.node r₀ ch₀ :: ts₀),
      updRec δ (coeffStart (copyArena A δ)) A.cstride (A.recs q) =
        { A.recs q with
            children := (A.recs q).children.map (· + δ)
            parent := (A.recs q).parent + δ
            coefPtr := (A.recs q).coefPtr + δ }) ∧
    (∀ q ∈ ranksL (FT.node r₀ ch₀ :: ts₀),
      updRec 0 (coeffStart A) A.cstride (A.recs q) = A.recs q) := by
  have hmem₀ : r₀ ∈ ranksL (FT.node r₀ ch₀ :: ts₀) := by
    rw [show ranksL (FT.node r₀ ch₀ :: ts₀) = ranksF (FT.node r₀ ch₀) ++ ranksL ts₀ from rfl,
      show ranksF (FT.node r₀ ch₀) = r₀ :: ranksL ch₀ from rfl, List.cons_append]
    exact List.mem_cons_self _ _
  refine ⟨?_, ?_, ?_, ?_⟩
  · exact RewritePointers_char (copyArena A δ) r₀ ch₀ ts₀ δ hs
      (fun t ht => ReprSh_copy A δ t (hrepr t ht)) hnd
      (by
        show A.roots.map (· + δ) = nodeAddr (copyArena A δ) r₀ ::
          (ts₀.map fun t => nodeAddr (copyArena A δ) t.rank)
        rw [hroots, List.map_cons, List.map_map]
        simp only [nodeAddr_copy, Function.comp]
        rfl)
      (by
        show coeffStart (copyArena A δ) - (A.recs r₀).coefPtr = δ
        rw [coeffStart_copy, hcoef r₀ hmem₀, hroot0]
        push_cast
        ring)
  · exact RewritePointers_char A r₀ ch₀ ts₀ 0 hs hrepr hnd hroots
      (by
        rw [hcoef r₀ hmem₀, hroot0]
        push_cast
        ring)
  · intro q hq
    have hl := hclen q hq
    refine NRec.ext rfl ?_ rfl ?_ rfl
    · show ((A.recs q).children.take (A.recs q).nChildren).map (· + δ) ++
        (A.recs q).children.drop (A.recs q).nChildren = (A.recs q).children.map (· + δ)
      rw [← hl, List.take_length, List.drop_length, List.append_nil]
    · show coeffStart (copyArena A δ) + (A.recs q).coefIx * A.cstride =
        (A.recs q).coefPtr + δ
      rw [coeffStart_copy, hcoef q hq]
      ring
  · intro q hq
    have hl := hclen q hq
    refine NRec.ext rfl ?_ ?_ ?_ rfl
    · show ((A.recs q).children.take (A.recs q).nChildren).map (· + 0) ++
        (A.recs q).children.drop (A.recs q).nChildren = (A.recs q).children
      rw [← hl, List.take_length, List.drop_length, List.append_nil]
      simp
    · show (A.recs q).parent + 0 = (A.recs q).parent
      ring
    · show coeffStart A + (A.recs q).coefIx * A.cstride = (A.recs q).coefPtr
      exact (hcoef q hq).symm

/-- A concrete arena over the rationals holding a 3-level chain tree:
root rank 0 at address 102, its child rank 1 at 106, grandchild leaf
rank 2 at 110; coefficient region starts at 114 with blocks of 8
doubles, node q holding coefficient index q. -/
def cA : SArena ℚ :=
  { base := 100
    hdr := 2
    stride := 4
    maxNodes := 3
    cstride := 8
    recs := fun q =>
      if q = 0 then ⟨1, [106], 0, 114, 0⟩
      else if q = 1 then ⟨1, [110], 102, 122, 1⟩
      else if q = 2 then ⟨0, [], 106, 130, 2⟩
      else ⟨0, [], 0, 0, 0⟩
    coeffData := fun i => (i : ℚ)
    roots := [102] }

/-- C2 witness: the round-trip theorem applied to the concrete 3-level
chain arena with relocation offset 40, extracting the record-shift
characterisation of the mid-level node, rank 1. -/
theorem C2_relocation_roundtrip_witness :
    (1 : ℕ) ∈ ranksL [FT.node 0 [FT.node 1 [FT.node 2 []]]] ∧
    updRec 40 (coeffStart (copyArena cA 40)) cA.cstride (cA.recs 1) =
      { cA.recs 1 with
          children := (cA.recs 1).children.map (· + 40)
          parent := (cA.recs 1).parent + 40
          coefPtr := (cA.recs 1).coefPtr + 40 } := by
  have hm : (1 : ℕ) ∈ ranksL [FT.node 0 [FT.node 1 [FT.node 2 []]]] := by
    simp [ranksL, ranksF]
  have hrep2 : ReprSh cA 0 (FT.node 2 []) :=
    ReprSh.node 2 [] (by decide) (by decide) (by decide)
      (fun t ht => absurd ht (List.not_mem_nil t))
  have hrep1 : ReprSh cA 0 (FT.node 1 [FT.node 2 []]) :=
    ReprSh.node 1 [FT.node 2 []] (by decide) (by decide) (by decide)
      (fun t ht => by
        rw [List.mem_singleton] at ht
        subst ht
        exact hrep2)
  have hrep0 : ReprSh cA 0 (FT.node 0 [FT.node 1 [FT.node 2 []]]) :=
    ReprSh.node 0 [FT.node 1 [FT.node 2 []]] (by decide) (by decide) (by decide)
      (fun t ht => by
        rw [List.mem_singleton] at ht
        subst ht
        exact hrep1)
  refine ⟨hm, (C2_relocation_roundtrip cA 0 [FT.node 1 [FT.node 2 []]] [] 40
    (by decide)
    (fun t ht => by
      rw [List.mem_singleton] at ht
      subst ht
      exact hrep0)
    (by
      simp only [ranksL, ranksF, List.append_nil]
      decide)
    (by decide)
    (by
      simp only [ranksL, ranksF, List.append_nil]
      decide)
    (by
      simp only [ranksL, ranksF, List.append_nil]
      decide)
    (by decide)).2.2.1 1 hm⟩

end MRCPP
